import Mathlib

/-! Verification development for the Gmail signature update core
    (template engine, profile normalizer, relevance filter, assembler),
    embedded from src/data.py and src/sender.py. Text is modelled as
    lists of characters; Python dictionaries as association lists. -/

namespace SigGen

/-- Text is modelled as a list of characters. -/
abbrev Str := List Char

/-- A dictionary value is either a string or a boolean: the two value shapes
    that occur in processed user data. -/
inductive Value where
  | str (s : Str)
  | bool (b : Bool)
deriving DecidableEq

/-- Python str() of a value: strings unchanged, booleans print as True/False. -/
def Value.toStr : Value → Str
  | .str s => s
  | .bool b => if b then ("True".toList) else ("False".toList)

/-- Python truthiness of a value: nonempty string, or the boolean itself. -/
def Value.truthy : Value → Bool
  | .str s => !s.isEmpty
  | .bool b => b

/-- A dictionary is an association list (keys are unique in every dict built here). -/
abbrev Data := List (Str × Value)

/-- dict.get: the first binding of the key, if any. -/
def getV : Data → Str → Option Value
  | [], _ => none
  | (k, v) :: d, key => if k = key then some v else getV d key

/-- Truthiness of dict.get(key); an absent key (None) is falsy. -/
def truthyGet (d : Data) (k : Str) : Bool :=
  match getV d k with
  | none => false
  | some v => v.truthy

/-- str(data.get(keyword, "")). -/
def valStr (d : Data) (k : Str) : Str := ((getV d k).getD (.str [])).toStr

/-- The three marker kinds of the template language. -/
inductive MK where
  | sub
  | opn
  | cls
deriving DecidableEq

/-- Literal marker text: substitute marker is the keyword in braces, the opening
    delimiter adds a trailing slash, the closing delimiter a leading slash. -/
def marker : MK → Str → Str
  | .sub, kw => '{' :: (kw ++ ['}'])
  | .opn, kw => '{' :: (kw ++ ['/', '}'])
  | .cls, kw => '{' :: ('/' :: (kw ++ ['}']))

/-- A well-behaved keyword: nonempty, containing no brace and no slash. Every
    keyword of the replacement lists, and company/web, satisfies this. -/
def goodKw (kw : Str) : Prop := kw ≠ [] ∧ ∀ c ∈ kw, c ≠ '{' ∧ c ≠ '}' ∧ c ≠ '/'

/-- The part of a marker strictly between the opening brace and the closing
    brace, so that marker mk kw = '{' :: markerCore mk kw ++ ['}']. -/
def markerCore : MK → Str → Str
  | .sub, kw => kw
  | .opn, kw => kw ++ ['/']
  | .cls, kw => '/' :: kw

/-- A template token: a literal chunk or a marker. Token lists give the
    structured reading of template text on which the engine's global behaviour
    is stated. -/
inductive Tok where
  | lit (s : Str)
  | mark (mk : MK) (kw : Str)
deriving DecidableEq

/-- Flatten a token list to text. -/
def flat : List Tok → Str
  | [] => []
  | .lit s :: ts => s ++ flat ts
  | .mark mk kw :: ts => marker mk kw ++ flat ts

/-- A benign token: a brace-free literal, or a marker with a well-behaved
    keyword. -/
def TokOk : Tok → Prop
  | .lit s => ∀ c ∈ s, c ≠ '{' ∧ c ≠ '}'
  | .mark _ kw => goodKw kw

/-- Replace every occurrence of one marker token by a literal. -/
def substTok (mk : MK) (kw : Str) (r : Str) : List Tok → List Tok :=
  List.map fun t => if t = .mark mk kw then .lit r else t

/-- Split a token list at the first occurrence of a given token. -/
def splitAtTok (t0 : Tok) : List Tok → Option (List Tok × List Tok)
  | [] => none
  | t :: ts =>
    if t = t0 then some ([], ts)
    else (splitAtTok t0 ts).map fun pr => (t :: pr.1, pr.2)

/-- Fuel-bounded structural analogue of removeBlocks on token lists. -/
def delBlocksF (kw : Str) : Nat → List Tok → List Tok
  | _, [] => []
  | 0, ts => ts
  | n + 1, t :: ts =>
    if t = Tok.mark .opn kw then
      match splitAtTok (Tok.mark .cls kw) ts with
      | some pr => delBlocksF kw n pr.2
      | none => t :: delBlocksF kw n ts
    else t :: delBlocksF kw n ts

/-- Structural analogue of removeBlocks: delete every block of the keyword,
    scanning left to right, each block extending to the first closing token. -/
def delBlocks (kw : Str) (ts : List Tok) : List Tok := delBlocksF kw ts.length ts

instance (kw : Str) : Decidable (goodKw kw) :=
  decidable_of_iff (kw ≠ [] ∧ ∀ c ∈ kw, c ≠ '{' ∧ c ≠ '}' ∧ c ≠ '/') Iff.rfl

instance : (t : Tok) → Decidable (TokOk t)
  | .lit s => decidable_of_iff (∀ c ∈ s, c ≠ '{' ∧ c ≠ '}') Iff.rfl
  | .mark _ kw => decidable_of_iff (goodKw kw) Iff.rfl

/-- Fuel-bounded scan for replaceAll; one unit of fuel is spent per scanning
    step, and every step consumes at least one character, so fuel equal to the
    text length makes the bound irrelevant. -/
def replaceAllF (p r : Str) : Nat → Str → Str
  | _, [] => []
  | 0, t => t
  | n + 1, c :: cs =>
    if p ≠ [] ∧ p.isPrefixOf (c :: cs) then
      r ++ replaceAllF p r n (List.drop p.length (c :: cs))
    else
      c :: replaceAllF p r n cs

/-- Python str.replace: replace every non-overlapping occurrence of the pattern,
    scanning left to right. All patterns used by the engine are markers, hence
    nonempty; for an empty pattern this returns the text unchanged. -/
def replaceAll (p r t : Str) : Str := replaceAllF p r t.length t

/-- Index of the first occurrence of the pattern, if any (all uses have a
    nonempty pattern). -/
def findOcc (p : Str) : Str → Option Nat
  | [] => none
  | c :: cs => if p.isPrefixOf (c :: cs) then some 0 else (findOcc p cs).map (· + 1)

/-- Fuel-bounded scan for removeBlocks. -/
def removeBlocksF (op cl : Str) : Nat → Str → Str
  | _, [] => []
  | 0, t => t
  | n + 1, c :: cs =>
    if op ≠ [] ∧ op.isPrefixOf (c :: cs) then
      match findOcc cl (List.drop op.length (c :: cs)) with
      | some i => removeBlocksF op cl n (List.drop (op.length + i + cl.length) (c :: cs))
      | none => c :: removeBlocksF op cl n cs
    else c :: removeBlocksF op cl n cs

/-- Python re.sub of the non-greedy DOTALL pattern op.*?cl with the empty
    replacement: scanning left to right, at each occurrence of op the match
    extends to the first following occurrence of cl and is deleted; if no cl
    follows, scanning advances one character. Faithful to
    remove_everything_between_tags for the regex-safe keywords the engine uses. -/
def removeBlocks (op cl t : Str) : Str := removeBlocksF op cl t.length t

/-- Template replacement operator names (module constants in data.py). -/
def NORMAL_REPLACEMENT : Str := "normal".toList

/-- Operator name for conditional blocks that also substitute a value. -/
def CUSTOM_PARAGRAPH_WITH_VARIABLE : Str := "customParagraphWithVariable".toList

/-- Operator name for boolean-gated conditional blocks. -/
def CUSTOM_PARAGRAPH_WITHOUT_VARIABLE : Str := "customParagraphWithoutVariable".toList

/-- remove_tags from data.py: delete every occurrence of the opening marker,
    then every occurrence of the closing marker. -/
def remove_tags (text kw : Str) : Str :=
  replaceAll (marker .cls kw) [] (replaceAll (marker .opn kw) [] text)

/-- remove_everything_between_tags from data.py: delete every non-greedy block
    bounded by the opening and closing markers of the keyword. -/
def remove_everything_between_tags (text kw : Str) : Str :=
  removeBlocks (marker .opn kw) (marker .cls kw) text

/-- replace_template_variable from data.py. -/
def replace_template_variable (text kw operator : Str) (d : Data) : Str :=
  if operator = NORMAL_REPLACEMENT then
    replaceAll (marker .sub kw) (valStr d kw) text
  else if operator = CUSTOM_PARAGRAPH_WITH_VARIABLE then
    if truthyGet d kw then
      replaceAll (marker .sub kw) (valStr d kw) (remove_tags text kw)
    else
      remove_everything_between_tags text kw
  else if operator = CUSTOM_PARAGRAPH_WITHOUT_VARIABLE then
    if getV d kw = some (.bool true) then
      remove_tags text kw
    else
      remove_everything_between_tags text kw
  else
    text

/-- One entry of the raw record's phones list. Absent sub-keys are collapsed to
    their .get defaults (empty string). -/
structure PhoneEntry where
  type : Str
  value : Str
deriving DecidableEq

/-- One entry of the raw record's addresses list. -/
structure AddressEntry where
  type : Str
  formatted : Str
deriving DecidableEq

/-- One entry of the raw record's organizations list. -/
structure OrgEntry where
  title : Str
  department : Str
deriving DecidableEq

/-- A raw Google Directory record, restricted to the fields the code reads.
    Missing fields of the Python dict are collapsed to their .get defaults
    (empty string, false, empty list), exactly as the code treats them. -/
structure RawRecord where
  primaryEmail : Str
  givenName : Str
  familyName : Str
  orgUnitPath : Str
  suspended : Bool
  archived : Bool
  phones : List PhoneEntry
  addresses : List AddressEntry
  organizations : List OrgEntry
  Pronouns : Str
  GernePerDu : Str
  Management_Role : Str
deriving DecidableEq

/-- The phone-extraction loop of process_user_data: iterate over the entries,
    a work-typed entry overwrites phone, a mobile-typed entry overwrites mobile. -/
def phoneFold : List PhoneEntry → Str × Str → Str × Str
  | [], acc => acc
  | e :: es, (p, m) =>
    phoneFold es
      (if e.type = ("work".toList) then (e.value, m)
       else if e.type = ("mobile".toList) then (p, e.value)
       else (p, m))

/-- The address-extraction loop of process_user_data: a work-typed entry
    overwrites the address. -/
def addrFold : List AddressEntry → Str → Str
  | [], acc => acc
  | e :: es, a =>
    addrFold es (if e.type = ("work".toList) then e.formatted else a)

/-- process_user_data from data.py. -/
def process_user_data (r : RawRecord) : Data :=
  let technical_user := r.orgUnitPath = ("/Orga Accounts".toList)
  let email := r.primaryEmail
  let first_name := r.givenName
  let last_name := r.familyName
  let pm := phoneFold r.phones ([], [])
  let phone := pm.1
  let mobile := pm.2
  let address := addrFold r.addresses []
  if technical_user then
    [(("technicalUser".toList), .bool true),
     (("email".toList), .str email),
     (("lastName".toList), .str last_name),
     (("address".toList), .str address),
     (("phone".toList), .str phone)]
  else
    let jobtitle := match r.organizations with | [] => [] | o :: _ => o.title
    let department := match r.organizations with | [] => [] | o :: _ => o.department
    let pronouns := r.Pronouns
    let gerne_per_du : Bool := decide (r.GernePerDu = ("yes".toList))
    let conditional_line_break : Bool := !(pronouns.isEmpty && !gerne_per_du)
    let management_role := r.Management_Role
    [(("technicalUser".toList), .bool false),
     (("email".toList), .str email),
     (("firstName".toList), .str first_name),
     (("lastName".toList), .str last_name),
     (("jobtitle".toList), .str jobtitle),
     (("address".toList), .str address),
     (("department".toList), .str department),
     (("phone".toList), .str phone),
     (("mobile".toList), .str mobile),
     (("pronouns".toList), .str pronouns),
     (("gernePerDu".toList), .bool gerne_per_du),
     (("conditionalLineBreak".toList), .bool conditional_line_break),
     (("managementRole".toList), .str management_role)]

/-- Substring test, Python's "needle in haystack". -/
def hasSubstr (p : Str) : Str → Bool
  | [] => false
  | c :: cs => p.isPrefixOf (c :: cs) || hasSubstr p cs

/-- check_user_for_relevance from sender.py. The two compiled regexes anchor at
    the start of the path and end in .*, so they are exactly prefix tests. -/
def check_user_for_relevance (u : RawRecord) : Bool :=
  !u.suspended && !u.archived &&
  !(("/Deactivated".toList).isPrefixOf u.orgUnitPath) &&
  !(("/Cloud Identities".toList).isPrefixOf u.orgUnitPath) &&
  !(u.orgUnitPath == ("/Xternal/No drive".toList)) &&
  !(u.orgUnitPath == ("/".toList)) &&
  !(hasSubstr ("external".toList) u.primaryEmail) &&
  !(u.primaryEmail == ("kaiser.soze@kaiser-x.com".toList)) &&
  !(u.primaryEmail == ("google_tech@kaiser-x.com".toList))

/-- A sample directory record with two work-tagged addresses, two work-tagged
    phones and two mobile-tagged phones. -/
def recWithDuplicates : RawRecord :=
  { primaryEmail := "bob@kaiser-x.com".toList
    givenName := "Bob".toList
    familyName := "Builder".toList
    orgUnitPath := "/Staff".toList
    suspended := false
    archived := false
    phones := [{ type := "work".toList, value := "111".toList },
               { type := "work".toList, value := "222".toList },
               { type := "mobile".toList, value := "333".toList },
               { type := "mobile".toList, value := "444".toList }]
    addresses := [{ type := "work".toList, formatted := "First St 1".toList },
                  { type := "work".toList, formatted := "Second St 2".toList }]
    organizations := []
    Pronouns := []
    GernePerDu := []
    Management_Role := [] }

/-- A sample technical-account record. -/
def recTechnical : RawRecord :=
  { primaryEmail := "printer@kaiser-x.com".toList
    givenName := []
    familyName := "Printer".toList
    orgUnitPath := "/Orga Accounts".toList
    suspended := false
    archived := false
    phones := []
    addresses := []
    organizations := []
    Pronouns := []
    GernePerDu := []
    Management_Role := [] }

/-- A sample standard record with empty pronouns and the informal-address
    attribute set to the literal yes. -/
def recStandard : RawRecord :=
  { primaryEmail := "ana@kaiser-x.com".toList
    givenName := "Ana".toList
    familyName := "Ample".toList
    orgUnitPath := "/Staff".toList
    suspended := false
    archived := false
    phones := [{ type := "work".toList, value := "555".toList }]
    addresses := [{ type := "work".toList, formatted := "Main St 9".toList }]
    organizations := [{ title := "Engineer".toList, department := "Tech".toList }]
    Pronouns := []
    GernePerDu := "yes".toList
    Management_Role := [] }

/-- Company name constant from data.py. -/
def COMPANY_NAME : Str := "Kaiser X Labs".toList

/-- Company website constant from data.py. -/
def COMPANY_WEBSITE : Str := "http://www.kaiser-x.com/".toList

/-- The common replacement list used for every profile shape. -/
def commonReplacements : List (Str × Str) :=
  [(("lastName".toList), NORMAL_REPLACEMENT),
   (("address".toList), NORMAL_REPLACEMENT),
   (("phone".toList), CUSTOM_PARAGRAPH_WITH_VARIABLE),
   (("email".toList), NORMAL_REPLACEMENT)]

/-- The additional replacements appended for non-technical profiles. -/
def additionalReplacements : List (Str × Str) :=
  [(("firstName".toList), NORMAL_REPLACEMENT),
   (("jobtitle".toList), NORMAL_REPLACEMENT),
   (("managementRole".toList), CUSTOM_PARAGRAPH_WITH_VARIABLE),
   (("pronouns".toList), CUSTOM_PARAGRAPH_WITH_VARIABLE),
   (("gernePerDu".toList), CUSTOM_PARAGRAPH_WITHOUT_VARIABLE),
   (("conditionalLineBreak".toList), CUSTOM_PARAGRAPH_WITHOUT_VARIABLE),
   (("mobile".toList), CUSTOM_PARAGRAPH_WITH_VARIABLE)]

/-- build_signature from data.py. -/
def build_signature (html_template : Str) (employee_data : Data) : Str :=
  let replacements :=
    if truthyGet employee_data ("technicalUser".toList) then commonReplacements
    else commonReplacements ++ additionalReplacements
  let t := replacements.foldl
    (fun acc kv => replace_template_variable acc kv.1 kv.2 employee_data) html_template
  let t := replaceAll (marker .sub ("company".toList)) COMPANY_NAME t
  replaceAll (marker .sub ("web".toList)) COMPANY_WEBSITE t

/-- Modelled from the spec, section 4.4: the assembler transcribed literally
    from the specification's wording — one engine pass per entry of the fixed
    ordered field list (the four common fields for technical profiles, the full
    eleven-entry list otherwise), then the two global constants substituted
    last, unconditionally. Used only to compare against build_signature. -/
def assemble_per_spec (template : Str) (d : Data) : Str :=
  let fields : List (Str × Str) :=
    if truthyGet d ("technicalUser".toList) then
      [(("lastName".toList), NORMAL_REPLACEMENT),
       (("address".toList), NORMAL_REPLACEMENT),
       (("phone".toList), CUSTOM_PARAGRAPH_WITH_VARIABLE),
       (("email".toList), NORMAL_REPLACEMENT)]
    else
      [(("lastName".toList), NORMAL_REPLACEMENT),
       (("address".toList), NORMAL_REPLACEMENT),
       (("phone".toList), CUSTOM_PARAGRAPH_WITH_VARIABLE),
       (("email".toList), NORMAL_REPLACEMENT),
       (("firstName".toList), NORMAL_REPLACEMENT),
       (("jobtitle".toList), NORMAL_REPLACEMENT),
       (("managementRole".toList), CUSTOM_PARAGRAPH_WITH_VARIABLE),
       (("pronouns".toList), CUSTOM_PARAGRAPH_WITH_VARIABLE),
       (("gernePerDu".toList), CUSTOM_PARAGRAPH_WITHOUT_VARIABLE),
       (("conditionalLineBreak".toList), CUSTOM_PARAGRAPH_WITHOUT_VARIABLE),
       (("mobile".toList), CUSTOM_PARAGRAPH_WITH_VARIABLE)]
  let t := fields.foldl (fun acc kv => replace_template_variable acc kv.1 kv.2 d) template
  replaceAll (marker .sub ("web".toList)) COMPANY_WEBSITE
    (replaceAll (marker .sub ("company".toList)) COMPANY_NAME t)

/-- A record whose primary email is itself a substitute marker; its profile
    injects that marker into the rendered text. -/
def recBraceEmail : RawRecord :=
  { primaryEmail := "{lastName}".toList
    givenName := "Jo".toList
    familyName := "Doe".toList
    orgUnitPath := "/Staff".toList
    suspended := false
    archived := false
    phones := []
    addresses := []
    organizations := []
    Pronouns := []
    GernePerDu := []
    Management_Role := [] }

/-- Allowed interior token of a conditional block for keyword kw in mode m,
    relative to the pending replacement list P: a brace-free literal, or a
    substitute marker that a later Substitute pass or the final company/web
    substitution resolves, or the block's own keyword when the mode also
    substitutes a value. -/
def InnerOk (P : List (Str × Str)) (kw m : Str) : Tok → Prop
  | .lit s => ∀ c ∈ s, c ≠ '{' ∧ c ≠ '}'
  | .mark .sub k => (k, NORMAL_REPLACEMENT) ∈ P ∨ k = ("company".toList)
      ∨ k = ("web".toList) ∨ (k = kw ∧ m = CUSTOM_PARAGRAPH_WITH_VARIABLE)
  | .mark .opn _ => False
  | .mark .cls _ => False

instance (P : List (Str × Str)) (kw m : Str) : (t : Tok) → Decidable (InnerOk P kw m t)
  | .lit s => decidable_of_iff (∀ c ∈ s, c ≠ '{' ∧ c ≠ '}') Iff.rfl
  | .mark .sub k =>
    decidable_of_iff ((k, NORMAL_REPLACEMENT) ∈ P ∨ k = ("company".toList)
      ∨ k = ("web".toList) ∨ (k = kw ∧ m = CUSTOM_PARAGRAPH_WITH_VARIABLE)) Iff.rfl
  | .mark .opn _ => decidable_of_iff False Iff.rfl
  | .mark .cls _ => decidable_of_iff False Iff.rfl

/-- A token allowed at top level once its own pass is over: a brace-free
    literal or a substitute marker of a pending Substitute keyword or of
    company/web. -/
def TopOk (P : List (Str × Str)) : Tok → Prop
  | .lit s => ∀ c ∈ s, c ≠ '{' ∧ c ≠ '}'
  | .mark .sub k => (k, NORMAL_REPLACEMENT) ∈ P ∨ k = ("company".toList)
      ∨ k = ("web".toList)
  | .mark .opn _ => False
  | .mark .cls _ => False

/-- Well-formed template token lists relative to the pending replacement list:
    literals are brace-free; a substitute marker belongs to a pending
    Substitute-mode keyword or to company/web; delimiter markers occur only as
    flat blocks of a pending conditional-mode keyword whose interior consists
    of literals and resolvable substitute markers. -/
inductive Wf (P : List (Str × Str)) : List Tok → Prop where
  | nil : Wf P []
  | lit {s : Str} {ts : List Tok} :
      (∀ c ∈ s, c ≠ '{' ∧ c ≠ '}') → Wf P ts → Wf P (.lit s :: ts)
  | subm {kw : Str} {ts : List Tok} :
      ((kw, NORMAL_REPLACEMENT) ∈ P ∨ kw = ("company".toList) ∨ kw = ("web".toList)) →
      Wf P ts → Wf P (.mark .sub kw :: ts)
  | blk {kw m : Str} {inner ts : List Tok} :
      (kw, m) ∈ P →
      (m = CUSTOM_PARAGRAPH_WITH_VARIABLE ∨ m = CUSTOM_PARAGRAPH_WITHOUT_VARIABLE) →
      (∀ t ∈ inner, InnerOk P kw m t) → Wf P ts →
      Wf P (.mark .opn kw :: (inner ++ .mark .cls kw :: ts))

/-- Dictionary values that can be substituted into a template without creating
    new markers: every value's string form is brace-free. -/
def DataOk (d : Data) : Prop := ∀ kv ∈ d, ∀ c ∈ (kv.2).toStr, c ≠ '{' ∧ c ≠ '}'

/-- Conditions the assembler's replacement lists satisfy: well-behaved
    keywords, none of them company or web, pairwise distinct, each paired with
    one of the three operator names. -/
def GoodR (R : List (Str × Str)) : Prop :=
  (∀ p ∈ R, goodKw p.1 ∧ p.1 ≠ ("company".toList) ∧ p.1 ≠ ("web".toList))
  ∧ (R.map Prod.fst).Nodup
  ∧ ∀ p ∈ R, p.2 = NORMAL_REPLACEMENT ∨ p.2 = CUSTOM_PARAGRAPH_WITH_VARIABLE
      ∨ p.2 = CUSTOM_PARAGRAPH_WITHOUT_VARIABLE

instance (R : List (Str × Str)) : Decidable (GoodR R) :=
  decidable_of_iff ((∀ p ∈ R, goodKw p.1 ∧ p.1 ≠ ("company".toList) ∧ p.1 ≠ ("web".toList))
    ∧ (R.map Prod.fst).Nodup
    ∧ ∀ p ∈ R, p.2 = NORMAL_REPLACEMENT ∨ p.2 = CUSTOM_PARAGRAPH_WITH_VARIABLE
        ∨ p.2 = CUSTOM_PARAGRAPH_WITHOUT_VARIABLE) Iff.rfl

instance (d : Data) : Decidable (DataOk d) :=
  decidable_of_iff (∀ kv ∈ d, ∀ c ∈ (kv.2).toStr, c ≠ '{' ∧ c ≠ '}') Iff.rfl

/-- Pointwise effect on one token of a truthy ConditionalBlockWithValue pass:
    delimiters of the keyword become empty literals, its substitute marker
    becomes the value. -/
def stripSub (kw v : Str) : Tok → Tok := fun t =>
  if t = .mark .opn kw then .lit []
  else if t = .mark .cls kw then .lit []
  else if t = .mark .sub kw then .lit v
  else t

/-- Pointwise effect on one token of a true ConditionalBlockOnly pass:
    delimiters of the keyword become empty literals. -/
def stripTags (kw : Str) : Tok → Tok := fun t =>
  if t = .mark .opn kw then .lit []
  else if t = .mark .cls kw then .lit []
  else t

/-- The structural effect of one engine pass on a token list. -/
def stepTok (d : Data) (kw op : Str) (ts : List Tok) : List Tok :=
  if op = NORMAL_REPLACEMENT then substTok .sub kw (valStr d kw) ts
  else if op = CUSTOM_PARAGRAPH_WITH_VARIABLE then
    if truthyGet d kw then
      substTok .sub kw (valStr d kw) (substTok .cls kw [] (substTok .opn kw [] ts))
    else delBlocks kw ts
  else if op = CUSTOM_PARAGRAPH_WITHOUT_VARIABLE then
    if getV d kw = some (.bool true) then
      substTok .cls kw [] (substTok .opn kw [] ts)
    else delBlocks kw ts
  else ts

/-! Basic lemmas about the scanning primitives. -/

theorem isPrefixOf_iff {p t : Str} : p.isPrefixOf t = true ↔ ∃ s, t = p ++ s := by
  induction p generalizing t with
  | nil => simp [List.isPrefixOf]
  | cons c ps ih =>
    cases t with
    | nil => simp [List.isPrefixOf]
    | cons b bs =>
      simp only [List.isPrefixOf, Bool.and_eq_true, beq_iff_eq, ih, List.cons_append,
        List.cons.injEq]
      constructor
      · rintro ⟨h1, s, h2⟩
        exact ⟨s, h1.symm, h2⟩
      · rintro ⟨s, h1, h2⟩
        exact ⟨h1.symm, s, h2⟩

theorem isPrefixOf_append_self (p t : Str) : p.isPrefixOf (p ++ t) = true :=
  isPrefixOf_iff.mpr ⟨t, rfl⟩

theorem not_isPrefixOf_cons_of_head {p : Str} {c : Char} {cs pt : Str}
    (hp : p = '{' :: pt) (hc : c ≠ '{') : ¬ p.isPrefixOf (c :: cs) = true := by
  subst hp
  intro h
  rcases isPrefixOf_iff.mp h with ⟨s, hs⟩
  cases hs
  exact hc rfl

theorem hasSubstr_iff {p t : Str} (hp : p ≠ []) :
    hasSubstr p t = true ↔ ∃ a b, t = a ++ p ++ b := by
  induction t with
  | nil =>
    simp only [hasSubstr, Bool.false_eq_true, false_iff]
    rintro ⟨a, b, hab⟩
    have hlen := congrArg List.length hab
    have hppos : 0 < p.length := List.length_pos.mpr hp
    simp only [List.length_nil, List.length_append] at hlen
    omega
  | cons c cs ih =>
    simp only [hasSubstr, Bool.or_eq_true, ih, isPrefixOf_iff]
    constructor
    · rintro (⟨s, hs⟩ | ⟨a, b, hab⟩)
      · exact ⟨[], s, by simpa using hs⟩
      · exact ⟨c :: a, b, by simp [hab]⟩
    · rintro ⟨a, b, hab⟩
      cases a with
      | nil => exact Or.inl ⟨b, by simpa using hab⟩
      | cons a0 as =>
        simp only [List.cons_append, List.cons.injEq] at hab
        exact Or.inr ⟨as, b, hab.2⟩

theorem replaceAllF_congr (p r : Str) :
    ∀ (n m : Nat) (t : Str), t.length ≤ n → t.length ≤ m →
      replaceAllF p r n t = replaceAllF p r m t := by
  intro n
  induction n with
  | zero =>
    intro m t ht _
    have hnil : t = [] := List.eq_nil_of_length_eq_zero (Nat.le_zero.mp ht)
    subst hnil
    cases m <;> rfl
  | succ n ih =>
    intro m t ht hm
    cases t with
    | nil => cases m <;> rfl
    | cons c cs =>
      cases m with
      | zero =>
        simp only [List.length_cons] at hm
        omega
      | succ m' =>
        simp only [replaceAllF]
        by_cases h : p ≠ [] ∧ p.isPrefixOf (c :: cs)
        · rw [if_pos h, if_pos h]
          have hp : 0 < p.length := List.length_pos.mpr h.1
          simp only [List.length_cons] at ht hm
          congr 1
          apply ih
          · simp only [List.length_drop, List.length_cons]
            omega
          · simp only [List.length_drop, List.length_cons]
            omega
        · rw [if_neg h, if_neg h]
          simp only [List.length_cons] at ht hm
          congr 1
          apply ih <;> omega

theorem replaceAll_nil (p r : Str) : replaceAll p r [] = [] := rfl

theorem replaceAll_cons_neg {p : Str} (r : Str) {c : Char} {cs : Str}
    (h : ¬ (p ≠ [] ∧ p.isPrefixOf (c :: cs) = true)) :
    replaceAll p r (c :: cs) = c :: replaceAll p r cs := by
  show replaceAllF p r (c :: cs).length (c :: cs) = c :: replaceAll p r cs
  simp only [List.length_cons, replaceAllF]
  rw [if_neg h]
  rfl

theorem replaceAll_append_self {p : Str} (hp : p ≠ []) (r t : Str) :
    replaceAll p r (p ++ t) = r ++ replaceAll p r t := by
  cases hps : p with
  | nil => exact absurd hps hp
  | cons c ps =>
    subst hps
    show replaceAllF (c :: ps) r ((c :: ps) ++ t).length ((c :: ps) ++ t) = _
    simp only [List.cons_append, List.length_cons, replaceAllF]
    rw [if_pos ⟨hp, isPrefixOf_append_self (c :: ps) t⟩]
    congr 1
    have hdrop : List.drop (ps.length + 1) (c :: (ps.append t)) = t := by
      simpa using List.drop_left (c :: ps) t
    rw [hdrop]
    apply replaceAllF_congr
    · simp only [List.append_eq, List.length_append]
      omega
    · omega

theorem removeBlocksF_congr (op cl : Str) :
    ∀ (n m : Nat) (t : Str), t.length ≤ n → t.length ≤ m →
      removeBlocksF op cl n t = removeBlocksF op cl m t := by
  intro n
  induction n with
  | zero =>
    intro m t ht _
    have hnil : t = [] := List.eq_nil_of_length_eq_zero (Nat.le_zero.mp ht)
    subst hnil
    cases m <;> rfl
  | succ n ih =>
    intro m t ht hm
    cases t with
    | nil => cases m <;> rfl
    | cons c cs =>
      cases m with
      | zero =>
        simp only [List.length_cons] at hm
        omega
      | succ m' =>
        simp only [removeBlocksF]
        by_cases h : op ≠ [] ∧ op.isPrefixOf (c :: cs)
        · rw [if_pos h, if_pos h]
          have hp : 0 < op.length := List.length_pos.mpr h.1
          simp only [List.length_cons] at ht hm
          cases hf : findOcc cl (List.drop op.length (c :: cs)) with
          | some i =>
            dsimp only
            apply ih
            · simp only [List.length_drop, List.length_cons]
              omega
            · simp only [List.length_drop, List.length_cons]
              omega
          | none =>
            dsimp only
            congr 1
            apply ih <;> omega
        · rw [if_neg h, if_neg h]
          simp only [List.length_cons] at ht hm
          congr 1
          apply ih <;> omega

theorem removeBlocks_nil (op cl : Str) : removeBlocks op cl [] = [] := rfl

theorem removeBlocks_cons_neg {op : Str} (cl : Str) {c : Char} {cs : Str}
    (h : ¬ (op ≠ [] ∧ op.isPrefixOf (c :: cs) = true)) :
    removeBlocks op cl (c :: cs) = c :: removeBlocks op cl cs := by
  show removeBlocksF op cl (c :: cs).length (c :: cs) = _
  simp only [List.length_cons, removeBlocksF]
  rw [if_neg h]
  rfl

theorem removeBlocks_cons_found {op cl : Str} {c : Char} {cs : Str} {i : Nat}
    (hne : op ≠ []) (hpre : op.isPrefixOf (c :: cs) = true)
    (hf : findOcc cl (List.drop op.length (c :: cs)) = some i) :
    removeBlocks op cl (c :: cs)
      = removeBlocks op cl (List.drop (op.length + i + cl.length) (c :: cs)) := by
  show removeBlocksF op cl (c :: cs).length (c :: cs) = _
  simp only [List.length_cons, removeBlocksF]
  rw [if_pos ⟨hne, hpre⟩, hf]
  dsimp only
  have hp : 0 < op.length := List.length_pos.mpr hne
  apply removeBlocksF_congr
  · simp only [List.length_drop, List.length_cons]
    omega
  · omega

theorem removeBlocks_cons_none {op cl : Str} {c : Char} {cs : Str}
    (hne : op ≠ []) (hpre : op.isPrefixOf (c :: cs) = true)
    (hf : findOcc cl (List.drop op.length (c :: cs)) = none) :
    removeBlocks op cl (c :: cs) = c :: removeBlocks op cl cs := by
  show removeBlocksF op cl (c :: cs).length (c :: cs) = _
  simp only [List.length_cons, removeBlocksF]
  rw [if_pos ⟨hne, hpre⟩, hf]
  rfl

/-! Marker geometry: each marker is an opening brace, a brace-free core, and a
    closing brace; distinct markers are never prefixes of one another. -/

theorem marker_decomp (mk : MK) (kw : Str) :
    marker mk kw = '{' :: (markerCore mk kw ++ ['}']) := by
  cases mk <;> simp [marker, markerCore]

theorem marker_ne_nil (mk : MK) (kw : Str) : marker mk kw ≠ [] := by
  rw [marker_decomp]
  simp

theorem markerCore_no_rbrace {kw : Str} (h : goodKw kw) (mk : MK) :
    ∀ c ∈ markerCore mk kw, c ≠ '}' := by
  intro c hc
  cases mk with
  | sub => exact (h.2 c hc).2.1
  | opn =>
    simp only [markerCore, List.mem_append, List.mem_singleton] at hc
    rcases hc with hc | rfl
    · exact (h.2 c hc).2.1
    · decide
  | cls =>
    simp only [markerCore, List.mem_cons] at hc
    rcases hc with rfl | hc
    · decide
    · exact (h.2 c hc).2.1

theorem markerCore_no_lbrace {kw : Str} (h : goodKw kw) (mk : MK) :
    ∀ c ∈ markerCore mk kw, c ≠ '{' := by
  intro c hc
  cases mk with
  | sub => exact (h.2 c hc).1
  | opn =>
    simp only [markerCore, List.mem_append, List.mem_singleton] at hc
    rcases hc with hc | rfl
    · exact (h.2 c hc).1
    · decide
  | cls =>
    simp only [markerCore, List.mem_cons] at hc
    rcases hc with rfl | hc
    · decide
    · exact (h.2 c hc).1

theorem eq_of_split_rbrace :
    ∀ (a b x y : Str), (∀ c ∈ a, c ≠ '}') → (∀ c ∈ b, c ≠ '}') →
      a ++ '}' :: x = b ++ '}' :: y → a = b ∧ x = y := by
  intro a
  induction a with
  | nil =>
    intro b x y _ hb heq
    cases b with
    | nil => exact ⟨rfl, by simpa using heq⟩
    | cons d ds =>
      simp only [List.nil_append, List.cons_append, List.cons.injEq] at heq
      exact absurd heq.1.symm (hb d (List.mem_cons_self d ds))
  | cons a0 as ih =>
    intro b x y ha hb heq
    cases b with
    | nil =>
      simp only [List.cons_append, List.nil_append, List.cons.injEq] at heq
      exact absurd heq.1 (ha a0 (List.mem_cons_self a0 as))
    | cons d ds =>
      simp only [List.cons_append, List.cons.injEq] at heq
      obtain ⟨h1, h2⟩ := heq
      obtain ⟨h3, h4⟩ :=
        ih ds x y (fun c hc => ha c (List.mem_cons_of_mem _ hc))
          (fun c hc => hb c (List.mem_cons_of_mem _ hc)) h2
      exact ⟨by rw [h1, h3], h4⟩

theorem markerCore_inj {mk mk' : MK} {kw kw' : Str} (h : goodKw kw) (h' : goodKw kw')
    (heq : markerCore mk kw = markerCore mk' kw') : mk = mk' ∧ kw = kw' := by
  have slash_kw : ('/' ∈ kw) → False := fun hm => (h.2 _ hm).2.2 rfl
  have slash_kw' : ('/' ∈ kw') → False := fun hm => (h'.2 _ hm).2.2 rfl
  cases mk <;> cases mk' <;> simp only [markerCore] at heq
  · exact ⟨rfl, heq⟩
  · exact absurd (by rw [heq]; simp : '/' ∈ kw) slash_kw
  · exact absurd (by rw [heq]; simp : '/' ∈ kw) slash_kw
  · exact absurd (by rw [← heq]; simp : '/' ∈ kw') slash_kw'
  · exact ⟨rfl, by simpa using List.append_inj_left' heq rfl⟩
  · -- kw ++ ['/'] = '/' :: kw'
    cases hkw : kw with
    | nil => exact absurd hkw h.1
    | cons c k =>
      rw [hkw] at heq
      simp only [List.cons_append, List.cons.injEq] at heq
      exact absurd (by rw [hkw, heq.1]; simp : '/' ∈ kw) slash_kw
  · exact absurd (by rw [← heq]; simp : '/' ∈ kw') slash_kw'
  · -- '/' :: kw = kw' ++ ['/']
    cases hkw : kw' with
    | nil => exact absurd hkw h'.1
    | cons c k =>
      rw [hkw] at heq
      simp only [List.cons_append, List.cons.injEq] at heq
      exact absurd (by rw [hkw, ← heq.1]; simp : '/' ∈ kw') slash_kw'
  · exact ⟨rfl, by simpa using heq⟩

theorem marker_not_prefix {mk mk' : MK} {kw kw' : Str} (h : goodKw kw) (h' : goodKw kw')
    (hne : ¬ (mk = mk' ∧ kw = kw')) (rest : Str) :
    ¬ (marker mk kw).isPrefixOf (marker mk' kw' ++ rest) = true := by
  intro hpre
  rcases isPrefixOf_iff.mp hpre with ⟨s, hs⟩
  rw [marker_decomp mk kw, marker_decomp mk' kw'] at hs
  simp only [List.cons_append, List.append_assoc, List.singleton_append,
    List.cons.injEq, true_and] at hs
  obtain ⟨hcore, -⟩ :=
    eq_of_split_rbrace _ _ _ _ (markerCore_no_rbrace h' mk') (markerCore_no_rbrace h mk) hs
  obtain ⟨hmk, hkw⟩ := markerCore_inj h' h hcore
  exact hne ⟨hmk.symm, hkw.symm⟩

/-! Stepping lemmas: how each scanner walks over brace-free chunks, over the
    marker it is looking for, and over any other marker. -/

theorem replaceAll_chunk {mk : MK} {kw : Str} (r : Str) {s : Str}
    (hs : ∀ c ∈ s, c ≠ '{') (t : Str) :
    replaceAll (marker mk kw) r (s ++ t) = s ++ replaceAll (marker mk kw) r t := by
  induction s with
  | nil => simp
  | cons c cs ih =>
    have hstep : replaceAll (marker mk kw) r (c :: (cs ++ t))
        = c :: replaceAll (marker mk kw) r (cs ++ t) := by
      apply replaceAll_cons_neg
      rintro ⟨-, hpre⟩
      exact not_isPrefixOf_cons_of_head (marker_decomp mk kw) (hs c (by simp)) hpre
    calc replaceAll (marker mk kw) r ((c :: cs) ++ t)
        = c :: replaceAll (marker mk kw) r (cs ++ t) := hstep
      _ = c :: (cs ++ replaceAll (marker mk kw) r t) := by
          rw [ih (fun d hd => hs d (List.mem_cons_of_mem _ hd))]
      _ = (c :: cs) ++ replaceAll (marker mk kw) r t := rfl

theorem replaceAll_marker_self (mk : MK) (kw : Str) (r t : Str) :
    replaceAll (marker mk kw) r (marker mk kw ++ t)
      = r ++ replaceAll (marker mk kw) r t :=
  replaceAll_append_self (marker_ne_nil mk kw) r t

theorem replaceAll_marker_skip {mk mk' : MK} {kw kw' : Str} (h : goodKw kw)
    (h' : goodKw kw') (hne : ¬ (mk = mk' ∧ kw = kw')) (r t : Str) :
    replaceAll (marker mk kw) r (marker mk' kw' ++ t)
      = marker mk' kw' ++ replaceAll (marker mk kw) r t := by
  rw [marker_decomp mk' kw']
  have hstep : replaceAll (marker mk kw) r ('{' :: ((markerCore mk' kw' ++ ['}']) ++ t))
      = '{' :: replaceAll (marker mk kw) r ((markerCore mk' kw' ++ ['}']) ++ t) := by
    apply replaceAll_cons_neg
    rintro ⟨-, hpre⟩
    refine marker_not_prefix h h' hne t ?_
    rw [marker_decomp mk' kw']
    simpa using hpre
  have hchunk : ∀ c ∈ markerCore mk' kw' ++ ['}'], c ≠ '{' := by
    intro c hc
    simp only [List.mem_append, List.mem_singleton] at hc
    rcases hc with hc | rfl
    · exact markerCore_no_lbrace h' mk' c hc
    · decide
  calc replaceAll (marker mk kw) r (('{' :: (markerCore mk' kw' ++ ['}'])) ++ t)
      = '{' :: replaceAll (marker mk kw) r ((markerCore mk' kw' ++ ['}']) ++ t) := hstep
    _ = '{' :: ((markerCore mk' kw' ++ ['}']) ++ replaceAll (marker mk kw) r t) := by
        rw [replaceAll_chunk r hchunk]
    _ = ('{' :: (markerCore mk' kw' ++ ['}'])) ++ replaceAll (marker mk kw) r t := rfl

theorem findOcc_chunk {mk : MK} {kw : Str} {s : Str} (hs : ∀ c ∈ s, c ≠ '{') (t : Str) :
    findOcc (marker mk kw) (s ++ t)
      = (findOcc (marker mk kw) t).map (· + s.length) := by
  induction s with
  | nil =>
    simp only [List.nil_append, List.length_nil]
    cases findOcc (marker mk kw) t <;> rfl
  | cons c cs ih =>
    have hnp : ¬ (marker mk kw).isPrefixOf (c :: (cs ++ t)) = true :=
      not_isPrefixOf_cons_of_head (marker_decomp mk kw) (hs c (by simp))
    show (if (marker mk kw).isPrefixOf (c :: (cs ++ t)) = true then some 0
        else (findOcc (marker mk kw) (cs ++ t)).map (· + 1)) = _
    rw [if_neg hnp, ih (fun d hd => hs d (List.mem_cons_of_mem _ hd))]
    cases findOcc (marker mk kw) t with
    | none => rfl
    | some v =>
      show some (v + cs.length + 1) = some (v + (cs.length + 1))
      rw [Nat.add_assoc]

theorem findOcc_self {p : Str} (hp : p ≠ []) (t : Str) : findOcc p (p ++ t) = some 0 := by
  cases hps : p with
  | nil => exact absurd hps hp
  | cons c ps =>
    subst hps
    show (if (c :: ps).isPrefixOf (c :: (ps ++ t)) = true then some 0
        else (findOcc (c :: ps) (ps ++ t)).map (· + 1)) = some 0
    have hpre : (c :: ps).isPrefixOf (c :: (ps ++ t)) = true :=
      isPrefixOf_append_self (c :: ps) t
    rw [if_pos hpre]

theorem findOcc_marker_skip {mk mk' : MK} {kw kw' : Str} (h : goodKw kw)
    (h' : goodKw kw') (hne : ¬ (mk = mk' ∧ kw = kw')) (t : Str) :
    findOcc (marker mk kw) (marker mk' kw' ++ t)
      = (findOcc (marker mk kw) t).map (· + (marker mk' kw').length) := by
  rw [marker_decomp mk' kw']
  have hnp : ¬ (marker mk kw).isPrefixOf
      ('{' :: ((markerCore mk' kw' ++ ['}']) ++ t)) = true := by
    intro hpre
    refine marker_not_prefix h h' hne t ?_
    rw [marker_decomp mk' kw']
    simpa using hpre
  have hchunk : ∀ c ∈ markerCore mk' kw' ++ ['}'], c ≠ '{' := by
    intro c hc
    simp only [List.mem_append, List.mem_singleton] at hc
    rcases hc with hc | rfl
    · exact markerCore_no_lbrace h' mk' c hc
    · decide
  show (if (marker mk kw).isPrefixOf ('{' :: ((markerCore mk' kw' ++ ['}']) ++ t)) = true
      then some 0
      else (findOcc (marker mk kw) ((markerCore mk' kw' ++ ['}']) ++ t)).map (· + 1)) = _
  rw [if_neg hnp, findOcc_chunk hchunk t]
  cases findOcc (marker mk kw) t with
  | none => rfl
  | some v =>
    show some (v + (markerCore mk' kw' ++ ['}']).length + 1)
        = some (v + ('{' :: (markerCore mk' kw' ++ ['}'])).length)
    simp [Nat.add_assoc]

theorem removeBlocks_chunk {kw : Str} (cl : Str) {s : Str}
    (hs : ∀ c ∈ s, c ≠ '{') (t : Str) :
    removeBlocks (marker .opn kw) cl (s ++ t)
      = s ++ removeBlocks (marker .opn kw) cl t := by
  induction s with
  | nil => simp
  | cons c cs ih =>
    have hstep : removeBlocks (marker .opn kw) cl (c :: (cs ++ t))
        = c :: removeBlocks (marker .opn kw) cl (cs ++ t) := by
      apply removeBlocks_cons_neg
      rintro ⟨-, hpre⟩
      exact not_isPrefixOf_cons_of_head (marker_decomp .opn kw) (hs c (by simp)) hpre
    calc removeBlocks (marker .opn kw) cl ((c :: cs) ++ t)
        = c :: removeBlocks (marker .opn kw) cl (cs ++ t) := hstep
      _ = c :: (cs ++ removeBlocks (marker .opn kw) cl t) := by
          rw [ih (fun d hd => hs d (List.mem_cons_of_mem _ hd))]
      _ = (c :: cs) ++ removeBlocks (marker .opn kw) cl t := rfl

theorem removeBlocks_marker_skip {mk' : MK} {kw kw' : Str} (h : goodKw kw)
    (h' : goodKw kw') (hne : ¬ (MK.opn = mk' ∧ kw = kw')) (cl t : Str) :
    removeBlocks (marker .opn kw) cl (marker mk' kw' ++ t)
      = marker mk' kw' ++ removeBlocks (marker .opn kw) cl t := by
  rw [marker_decomp mk' kw']
  have hstep : removeBlocks (marker .opn kw) cl ('{' :: ((markerCore mk' kw' ++ ['}']) ++ t))
      = '{' :: removeBlocks (marker .opn kw) cl ((markerCore mk' kw' ++ ['}']) ++ t) := by
    apply removeBlocks_cons_neg
    rintro ⟨-, hpre⟩
    refine marker_not_prefix h h' hne t ?_
    rw [marker_decomp mk' kw']
    simpa using hpre
  have hchunk : ∀ c ∈ markerCore mk' kw' ++ ['}'], c ≠ '{' := by
    intro c hc
    simp only [List.mem_append, List.mem_singleton] at hc
    rcases hc with hc | rfl
    · exact markerCore_no_lbrace h' mk' c hc
    · decide
  calc removeBlocks (marker .opn kw) cl (('{' :: (markerCore mk' kw' ++ ['}'])) ++ t)
      = '{' :: removeBlocks (marker .opn kw) cl ((markerCore mk' kw' ++ ['}']) ++ t) := hstep
    _ = '{' :: ((markerCore mk' kw' ++ ['}']) ++ removeBlocks (marker .opn kw) cl t) := by
        rw [removeBlocks_chunk cl hchunk]
    _ = ('{' :: (markerCore mk' kw' ++ ['}'])) ++ removeBlocks (marker .opn kw) cl t := rfl

theorem drop_append_len (a : Str) (n : Nat) (b : Str) :
    List.drop (a.length + n) (a ++ b) = List.drop n b := by
  induction a with
  | nil => simp
  | cons c cs ih => simpa [Nat.succ_add] using ih

theorem removeBlocks_found_general {op cl : Str} (hne : op ≠ []) {X : Str} {i : Nat}
    (hf : findOcc cl X = some i) :
    removeBlocks op cl (op ++ X) = removeBlocks op cl (List.drop (i + cl.length) X) := by
  cases hop : op with
  | nil => exact absurd hop hne
  | cons c ps =>
    subst hop
    have hdropX : List.drop (c :: ps).length (c :: (ps ++ X)) = X := by
      simpa using List.drop_left (c :: ps) X
    have hstep := @removeBlocks_cons_found (c :: ps) cl c (ps ++ X) i
      hne (isPrefixOf_append_self (c :: ps) X) (by rw [hdropX]; exact hf)
    have hdrop2 : List.drop ((c :: ps).length + i + cl.length) (c :: (ps ++ X))
        = List.drop (i + cl.length) X := by
      have := drop_append_len (c :: ps) (i + cl.length) X
      simpa [Nat.add_assoc] using this
    rw [← hdrop2]
    exact hstep

theorem removeBlocks_open_none {kw : Str} (h : goodKw kw) (cl : Str) {X : Str}
    (hf : findOcc cl X = none) :
    removeBlocks (marker .opn kw) cl (marker .opn kw ++ X)
      = marker .opn kw ++ removeBlocks (marker .opn kw) cl X := by
  have hchunk : ∀ c ∈ markerCore .opn kw ++ ['}'], c ≠ '{' := by
    intro c hc
    simp only [List.mem_append, List.mem_singleton] at hc
    rcases hc with hc | rfl
    · exact markerCore_no_lbrace h .opn c hc
    · decide
  have hdropX : List.drop (marker .opn kw).length
      ('{' :: ((markerCore .opn kw ++ ['}']) ++ X)) = X := by
    rw [marker_decomp]
    simpa using List.drop_left ('{' :: (markerCore .opn kw ++ ['}'])) X
  have hpre : (marker .opn kw).isPrefixOf
      ('{' :: ((markerCore .opn kw ++ ['}']) ++ X)) = true := by
    have := isPrefixOf_append_self (marker .opn kw) X
    rw [marker_decomp] at this ⊢
    simpa using this
  have hstep := @removeBlocks_cons_none (marker .opn kw) cl '{'
    ((markerCore .opn kw ++ ['}']) ++ X)
    (marker_ne_nil .opn kw) hpre (by rw [hdropX]; exact hf)
  calc removeBlocks (marker .opn kw) cl (marker .opn kw ++ X)
      = removeBlocks (marker .opn kw) cl ('{' :: ((markerCore .opn kw ++ ['}']) ++ X)) := by
        rw [marker_decomp]
        rfl
    _ = '{' :: removeBlocks (marker .opn kw) cl ((markerCore .opn kw ++ ['}']) ++ X) := hstep
    _ = '{' :: ((markerCore .opn kw ++ ['}']) ++ removeBlocks (marker .opn kw) cl X) := by
        rw [removeBlocks_chunk cl hchunk]
    _ = marker .opn kw ++ removeBlocks (marker .opn kw) cl X := by
        rw [marker_decomp]
        rfl

/-! Token-level correspondence: each scanner acting on the flattening of a
    benign token list acts structurally, token by token. -/

theorem flat_append : ∀ (a b : List Tok), flat (a ++ b) = flat a ++ flat b := by
  intro a b
  induction a with
  | nil => rfl
  | cons t ts ih =>
    cases t with
    | lit s => simp [flat, ih]
    | mark mk kw => simp [flat, ih]

theorem splitAtTok_eq_some {t0 : Tok} :
    ∀ {ts a b : List Tok}, splitAtTok t0 ts = some (a, b) →
      ts = a ++ t0 :: b ∧ t0 ∉ a := by
  intro ts
  induction ts with
  | nil => intro a b h; cases h
  | cons t ts ih =>
    intro a b h
    simp only [splitAtTok] at h
    by_cases ht : t = t0
    · rw [if_pos ht] at h
      cases h
      subst ht
      exact ⟨rfl, by simp⟩
    · rw [if_neg ht] at h
      cases hsp : splitAtTok t0 ts with
      | none => rw [hsp] at h; cases h
      | some pr =>
        rw [hsp] at h
        dsimp only [Option.map] at h
        cases h
        obtain ⟨h1, h2⟩ := ih hsp
        constructor
        · simp [h1]
        · simp only [List.mem_cons]
          rintro (rfl | hmem)
          · exact ht rfl
          · exact h2 hmem

theorem splitAtTok_eq_none {t0 : Tok} :
    ∀ {ts : List Tok}, splitAtTok t0 ts = none → t0 ∉ ts := by
  intro ts
  induction ts with
  | nil => intro _; simp
  | cons t ts ih =>
    intro h
    simp only [splitAtTok] at h
    by_cases ht : t = t0
    · rw [if_pos ht] at h; cases h
    · rw [if_neg ht] at h
      simp only [List.mem_cons]
      rintro (rfl | hmem)
      · exact ht rfl
      · cases hsp : splitAtTok t0 ts with
        | none => exact ih hsp hmem
        | some pr => rw [hsp] at h; cases h

theorem delBlocksF_congr (kw : Str) :
    ∀ (n m : Nat) (ts : List Tok), ts.length ≤ n → ts.length ≤ m →
      delBlocksF kw n ts = delBlocksF kw m ts := by
  intro n
  induction n with
  | zero =>
    intro m ts ht _
    have hnil : ts = [] := List.eq_nil_of_length_eq_zero (Nat.le_zero.mp ht)
    subst hnil
    cases m <;> rfl
  | succ n ih =>
    intro m ts ht hm
    cases ts with
    | nil => cases m <;> rfl
    | cons t ts =>
      cases m with
      | zero =>
        simp only [List.length_cons] at hm
        omega
      | succ m' =>
        simp only [delBlocksF]
        simp only [List.length_cons] at ht hm
        by_cases hop : t = Tok.mark .opn kw
        · rw [if_pos hop, if_pos hop]
          cases hsp : splitAtTok (Tok.mark .cls kw) ts with
          | some pr =>
            dsimp only
            obtain ⟨hdec, -⟩ := splitAtTok_eq_some hsp
            have hlen := congrArg List.length hdec
            simp only [List.length_append, List.length_cons] at hlen
            apply ih <;> omega
          | none =>
            dsimp only
            congr 1
            apply ih <;> omega
        · rw [if_neg hop, if_neg hop]
          congr 1
          apply ih <;> omega

theorem delBlocks_cons_notopen {kw : Str} {t : Tok} (ht : t ≠ Tok.mark .opn kw)
    (ts : List Tok) : delBlocks kw (t :: ts) = t :: delBlocks kw ts := by
  show delBlocksF kw (t :: ts).length (t :: ts) = _
  simp only [List.length_cons, delBlocksF]
  rw [if_neg ht]
  rfl

theorem delBlocks_cons_open_some {kw : Str} {ts : List Tok} {pr : List Tok × List Tok}
    (hsp : splitAtTok (Tok.mark .cls kw) ts = some pr) :
    delBlocks kw (Tok.mark .opn kw :: ts) = delBlocks kw pr.2 := by
  show delBlocksF kw (Tok.mark .opn kw :: ts).length (Tok.mark .opn kw :: ts) = _
  simp only [List.length_cons, delBlocksF]
  rw [if_pos trivial, hsp]
  dsimp only
  obtain ⟨hdec, -⟩ := splitAtTok_eq_some hsp
  have hlen := congrArg List.length hdec
  simp only [List.length_append, List.length_cons] at hlen
  apply delBlocksF_congr <;> omega

theorem delBlocks_cons_open_none {kw : Str} {ts : List Tok}
    (hsp : splitAtTok (Tok.mark .cls kw) ts = none) :
    delBlocks kw (Tok.mark .opn kw :: ts) = Tok.mark .opn kw :: delBlocks kw ts := by
  show delBlocksF kw (Tok.mark .opn kw :: ts).length (Tok.mark .opn kw :: ts) = _
  simp only [List.length_cons, delBlocksF]
  rw [if_pos trivial, hsp]
  rfl

theorem replaceAll_flat {mk : MK} {kw : Str} (h : goodKw kw) (r : Str) :
    ∀ (ts : List Tok), (∀ t ∈ ts, TokOk t) →
      replaceAll (marker mk kw) r (flat ts) = flat (substTok mk kw r ts) := by
  intro ts
  induction ts with
  | nil => intro _; rfl
  | cons t ts ih =>
    intro hok
    have hokts : ∀ t' ∈ ts, TokOk t' := fun t' ht' => hok t' (List.mem_cons_of_mem _ ht')
    cases t with
    | lit s =>
      have hlit : ∀ c ∈ s, c ≠ '{' ∧ c ≠ '}' := hok (Tok.lit s) (by simp)
      have hs : ∀ c ∈ s, c ≠ '{' := fun c hc => (hlit c hc).1
      show replaceAll (marker mk kw) r (s ++ flat ts) = _
      rw [replaceAll_chunk r hs, ih hokts]
      have hnm : (Tok.lit s = Tok.mark mk kw) = False := by simp
      show s ++ flat (substTok mk kw r ts)
          = flat ((if Tok.lit s = Tok.mark mk kw then Tok.lit r else Tok.lit s)
              :: substTok mk kw r ts)
      rw [if_neg (by simp)]
      rfl
    | mark mk' kw' =>
      have hkw' : goodKw kw' := hok (Tok.mark mk' kw') (by simp)
      by_cases hm : mk' = mk ∧ kw' = kw
      · obtain ⟨rfl, rfl⟩ := hm
        show replaceAll (marker mk' kw') r (marker mk' kw' ++ flat ts) = _
        rw [replaceAll_marker_self, ih hokts]
        show r ++ flat (substTok mk' kw' r ts)
            = flat ((if Tok.mark mk' kw' = Tok.mark mk' kw' then Tok.lit r else Tok.mark mk' kw')
                :: substTok mk' kw' r ts)
        rw [if_pos rfl]
        rfl
      · have hne : ¬ (mk = mk' ∧ kw = kw') := by
          rintro ⟨rfl, rfl⟩
          exact hm ⟨rfl, rfl⟩
        show replaceAll (marker mk kw) r (marker mk' kw' ++ flat ts) = _
        rw [replaceAll_marker_skip h hkw' hne r, ih hokts]
        show marker mk' kw' ++ flat (substTok mk kw r ts)
            = flat ((if Tok.mark mk' kw' = Tok.mark mk kw then Tok.lit r else Tok.mark mk' kw')
                :: substTok mk kw r ts)
        rw [if_neg (by simp only [Tok.mark.injEq, not_and]; intro h1 h2; exact hm ⟨h1, h2⟩)]
        rfl

theorem findOcc_flat_none {kw : Str} (h : goodKw kw) :
    ∀ (ts : List Tok), (∀ t ∈ ts, TokOk t) → Tok.mark .cls kw ∉ ts →
      findOcc (marker .cls kw) (flat ts) = none := by
  intro ts
  induction ts with
  | nil => intro _ _; rfl
  | cons t ts ih =>
    intro hok hmem
    have hokts : ∀ t' ∈ ts, TokOk t' := fun t' ht' => hok t' (List.mem_cons_of_mem _ ht')
    have hmemts : Tok.mark .cls kw ∉ ts := fun hc => hmem (List.mem_cons_of_mem _ hc)
    cases t with
    | lit s =>
      have hlit : ∀ c ∈ s, c ≠ '{' ∧ c ≠ '}' := hok (Tok.lit s) (by simp)
      have hs : ∀ c ∈ s, c ≠ '{' := fun c hc => (hlit c hc).1
      show findOcc (marker .cls kw) (s ++ flat ts) = none
      rw [findOcc_chunk hs, ih hokts hmemts]
      rfl
    | mark mk' kw' =>
      have hkw' : goodKw kw' := hok (Tok.mark mk' kw') (by simp)
      have hne : ¬ (MK.cls = mk' ∧ kw = kw') := by
        rintro ⟨rfl, rfl⟩
        exact hmem (by simp)
      show findOcc (marker .cls kw) (marker mk' kw' ++ flat ts) = none
      rw [findOcc_marker_skip h hkw' hne, ih hokts hmemts]
      rfl

theorem findOcc_flat_first {kw : Str} (h : goodKw kw) :
    ∀ (inner : List Tok), (∀ t ∈ inner, TokOk t) → Tok.mark .cls kw ∉ inner →
      ∀ (t : Str), findOcc (marker .cls kw) (flat inner ++ (marker .cls kw ++ t))
        = some (flat inner).length := by
  intro inner
  induction inner with
  | nil =>
    intro _ _ t
    show findOcc (marker .cls kw) (marker .cls kw ++ t) = some 0
    exact findOcc_self (marker_ne_nil .cls kw) t
  | cons tok toks ih =>
    intro hok hmem t
    have hokts : ∀ t' ∈ toks, TokOk t' := fun t' ht' => hok t' (List.mem_cons_of_mem _ ht')
    have hmemts : Tok.mark .cls kw ∉ toks := fun hc => hmem (List.mem_cons_of_mem _ hc)
    cases tok with
    | lit s =>
      have hlit : ∀ c ∈ s, c ≠ '{' ∧ c ≠ '}' := hok (Tok.lit s) (by simp)
      have hs : ∀ c ∈ s, c ≠ '{' := fun c hc => (hlit c hc).1
      show findOcc (marker .cls kw) ((s ++ flat toks) ++ (marker .cls kw ++ t))
          = some (s ++ flat toks).length
      rw [List.append_assoc, findOcc_chunk hs, ih hokts hmemts t]
      simp [Nat.add_comm]
    | mark mk' kw' =>
      have hkw' : goodKw kw' := hok (Tok.mark mk' kw') (by simp)
      have hne : ¬ (MK.cls = mk' ∧ kw = kw') := by
        rintro ⟨rfl, rfl⟩
        exact hmem (by simp)
      show findOcc (marker .cls kw) ((marker mk' kw' ++ flat toks) ++ (marker .cls kw ++ t))
          = some (marker mk' kw' ++ flat toks).length
      rw [List.append_assoc, findOcc_marker_skip h hkw' hne, ih hokts hmemts t]
      simp [Nat.add_comm]

theorem removeBlocks_flat {kw : Str} (h : goodKw kw) :
    ∀ (n : Nat) (ts : List Tok), ts.length ≤ n → (∀ t ∈ ts, TokOk t) →
      removeBlocks (marker .opn kw) (marker .cls kw) (flat ts)
        = flat (delBlocks kw ts) := by
  intro n
  induction n with
  | zero =>
    intro ts ht _
    have hnil : ts = [] := List.eq_nil_of_length_eq_zero (Nat.le_zero.mp ht)
    subst hnil
    rfl
  | succ n ih =>
    intro ts ht hok
    cases ts with
    | nil => rfl
    | cons t ts =>
      simp only [List.length_cons] at ht
      have hokts : ∀ t' ∈ ts, TokOk t' := fun t' ht' => hok t' (List.mem_cons_of_mem _ ht')
      cases t with
      | lit s =>
        have hlit : ∀ c ∈ s, c ≠ '{' ∧ c ≠ '}' := hok (Tok.lit s) (by simp)
        have hs : ∀ c ∈ s, c ≠ '{' := fun c hc => (hlit c hc).1
        show removeBlocks (marker .opn kw) (marker .cls kw) (s ++ flat ts) = _
        rw [removeBlocks_chunk _ hs, ih ts (by omega) hokts,
          delBlocks_cons_notopen (by simp) ts]
        rfl
      | mark mk' kw' =>
        have hkw' : goodKw kw' := hok (Tok.mark mk' kw') (by simp)
        by_cases hm : mk' = MK.opn ∧ kw' = kw
        · obtain ⟨rfl, rfl⟩ := hm
          cases hsp : splitAtTok (Tok.mark .cls kw') ts with
          | some pr =>
            obtain ⟨a, b⟩ := pr
            obtain ⟨hdec, hnotin⟩ := splitAtTok_eq_some hsp
            have hoka : ∀ t' ∈ a, TokOk t' := by
              intro t' ht'
              exact hokts t' (by rw [hdec]; exact List.mem_append_left _ ht')
            have hokb : ∀ t' ∈ b, TokOk t' := by
              intro t' ht'
              refine hokts t' ?_
              rw [hdec]
              exact List.mem_append_right _ (List.mem_cons_of_mem _ ht')
            have hflat : flat ts = flat a ++ (marker .cls kw' ++ flat b) := by
              rw [hdec, flat_append]
              rfl
            have hfind : findOcc (marker .cls kw') (flat ts) = some (flat a).length := by
              rw [hflat]
              exact findOcc_flat_first h a hoka hnotin (flat b)
            have hlen := congrArg List.length hdec
            simp only [List.length_append, List.length_cons] at hlen
            show removeBlocks (marker .opn kw') (marker .cls kw') (marker .opn kw' ++ flat ts)
                = _
            rw [removeBlocks_found_general (marker_ne_nil .opn kw') hfind]
            have hdropped : List.drop ((flat a).length + (marker .cls kw').length) (flat ts)
                = flat b := by
              rw [hflat, drop_append_len]
              have h2 := drop_append_len (marker .cls kw') 0 (flat b)
              simpa using h2
            rw [hdropped, ih b (by omega) hokb, delBlocks_cons_open_some hsp]
          | none =>
            have hnotin : Tok.mark .cls kw' ∉ ts := splitAtTok_eq_none hsp
            have hfind : findOcc (marker .cls kw') (flat ts) = none :=
              findOcc_flat_none h ts hokts hnotin
            show removeBlocks (marker .opn kw') (marker .cls kw') (marker .opn kw' ++ flat ts)
                = _
            rw [removeBlocks_open_none h _ hfind, ih ts (by omega) hokts,
              delBlocks_cons_open_none hsp]
            rfl
        · have hne : ¬ (MK.opn = mk' ∧ kw = kw') := by
            rintro ⟨rfl, rfl⟩
            exact hm ⟨rfl, rfl⟩
          have hne2 : Tok.mark mk' kw' ≠ Tok.mark .opn kw := by
            simp only [ne_eq, Tok.mark.injEq, not_and]
            intro h1 h2
            exact hm ⟨h1, h2⟩
          show removeBlocks (marker .opn kw) (marker .cls kw) (marker mk' kw' ++ flat ts) = _
          rw [removeBlocks_marker_skip h hkw' hne, ih ts (by omega) hokts,
            delBlocks_cons_notopen hne2 ts]
          rfl

theorem substTok_ok {mk : MK} {kw r : Str} (hr : ∀ c ∈ r, c ≠ '{' ∧ c ≠ '}')
    {ts : List Tok} (hok : ∀ t ∈ ts, TokOk t) :
    ∀ t ∈ substTok mk kw r ts, TokOk t := by
  intro t ht
  rcases List.mem_map.mp ht with ⟨t0, ht0, rfl⟩
  by_cases h0 : t0 = .mark mk kw
  · rw [if_pos h0]
    exact hr
  · rw [if_neg h0]
    exact hok t0 ht0

/-! Unfolding equations for the engine at each concrete operator name. -/

theorem rtv_normal (text kw : Str) (d : Data) :
    replace_template_variable text kw NORMAL_REPLACEMENT d
      = replaceAll (marker .sub kw) (valStr d kw) text := rfl

theorem rtv_withvar (text kw : Str) (d : Data) :
    replace_template_variable text kw CUSTOM_PARAGRAPH_WITH_VARIABLE d
      = if truthyGet d kw then
          replaceAll (marker .sub kw) (valStr d kw) (remove_tags text kw)
        else remove_everything_between_tags text kw := rfl

theorem rtv_withoutvar (text kw : Str) (d : Data) :
    replace_template_variable text kw CUSTOM_PARAGRAPH_WITHOUT_VARIABLE d
      = if getV d kw = some (.bool true) then remove_tags text kw
        else remove_everything_between_tags text kw := rfl

/-! A text with no closing marker is returned unchanged by block removal. -/

theorem findOcc_eq_none {p : Str} :
    ∀ {t : Str}, hasSubstr p t = false → findOcc p t = none := by
  intro t
  induction t with
  | nil => intro _; rfl
  | cons c cs ih =>
    intro h
    simp only [hasSubstr, Bool.or_eq_false_iff] at h
    show (if p.isPrefixOf (c :: cs) = true then some 0
        else (findOcc p cs).map (· + 1)) = none
    rw [if_neg (by simp [h.1]), ih h.2]
    rfl

theorem hasSubstr_drop {p : Str} :
    ∀ (t : Str) (n : Nat), hasSubstr p t = false → hasSubstr p (List.drop n t) = false := by
  intro t
  induction t with
  | nil =>
    intro n h
    rw [List.drop_nil]
    exact h
  | cons c cs ih =>
    intro n h
    cases n with
    | zero => exact h
    | succ m =>
      simp only [hasSubstr, Bool.or_eq_false_iff] at h
      exact ih m h.2

theorem removeBlocks_id_of_no_close (op : Str) {cl : Str} :
    ∀ (t : Str), hasSubstr cl t = false → removeBlocks op cl t = t := by
  intro t
  induction t with
  | nil => intro _; rfl
  | cons c cs ih =>
    intro h
    have hparts := h
    simp only [hasSubstr, Bool.or_eq_false_iff] at hparts
    by_cases hcnd : op ≠ [] ∧ op.isPrefixOf (c :: cs) = true
    · have hfind : findOcc cl (List.drop op.length (c :: cs)) = none :=
        findOcc_eq_none (hasSubstr_drop (c :: cs) op.length h)
      rw [removeBlocks_cons_none hcnd.1 hcnd.2 hfind, ih hparts.2]
    · rw [removeBlocks_cons_neg cl hcnd, ih hparts.2]

/-- C1, counterexample. A template whose opening conditional marker has no
    matching closing marker: the engine, invoked in conditional mode for that
    keyword, returns the text unchanged — silently, with no error signalled —
    contradicting the claim that a template syntax error condition is surfaced. -/
theorem c1_counterexample :
    replace_template_variable ("{phone/}Call me: {phone}".toList) ("phone".toList)
      CUSTOM_PARAGRAPH_WITH_VARIABLE []
      = ("{phone/}Call me: {phone}".toList) := by decide

/-- C1, amended. The engine has no failure path at all: on a template text
    containing no closing marker for the keyword (in particular any unterminated
    opening marker), a ConditionalBlockWithValue invocation with a falsy value,
    and a ConditionalBlockOnly invocation with a value other than boolean true,
    both return the text unchanged rather than signalling a template syntax
    error; every core operation of the embedding is a total function, so no
    operation raises on any input. -/
theorem c1_amended (t kw : Str) (d : Data)
    (hnoclose : hasSubstr (marker .cls kw) t = false) :
    (truthyGet d kw = false →
      replace_template_variable t kw CUSTOM_PARAGRAPH_WITH_VARIABLE d = t)
    ∧ (getV d kw ≠ some (Value.bool true) →
      replace_template_variable t kw CUSTOM_PARAGRAPH_WITHOUT_VARIABLE d = t) := by
  constructor
  · intro hfalsy
    rw [rtv_withvar, if_neg (by simp [hfalsy])]
    exact removeBlocks_id_of_no_close _ t hnoclose
  · intro hval
    rw [rtv_withoutvar, if_neg hval]
    exact removeBlocks_id_of_no_close _ t hnoclose

/-- C1, witness for the amended theorem at a concrete unterminated template. -/
theorem c1_witness :
    replace_template_variable ("{phone/}Call {phone} today".toList) ("phone".toList)
      CUSTOM_PARAGRAPH_WITH_VARIABLE []
      = ("{phone/}Call {phone} today".toList) :=
  (c1_amended ("{phone/}Call {phone} today".toList) ("phone".toList) [] (by decide)).1
    (by decide)

/-- C8. The two concrete scenarios of the spec: with the template
    "Hi \x7bfirstName\x7d, \x7bphone/\x7dCall me: \x7bphone\x7d\x7b/phone\x7d",
    applying the engine for phone in ConditionalBlockWithValue mode and then for
    firstName in Substitute mode yields "Hi Ana, " when phone is empty, and
    "Hi Ana, Call me: 123" when phone is "123". -/
theorem c8_concrete_scenarios :
    (replace_template_variable
        (replace_template_variable
          ("Hi {firstName}, {phone/}Call me: {phone}{/phone}".toList)
          ("phone".toList) CUSTOM_PARAGRAPH_WITH_VARIABLE
          [(("firstName".toList), Value.str ("Ana".toList)),
           (("phone".toList), Value.str [])])
        ("firstName".toList) NORMAL_REPLACEMENT
        [(("firstName".toList), Value.str ("Ana".toList)),
         (("phone".toList), Value.str [])]
      = ("Hi Ana, ".toList))
    ∧ (replace_template_variable
        (replace_template_variable
          ("Hi {firstName}, {phone/}Call me: {phone}{/phone}".toList)
          ("phone".toList) CUSTOM_PARAGRAPH_WITH_VARIABLE
          [(("firstName".toList), Value.str ("Ana".toList)),
           (("phone".toList), Value.str ("123".toList))])
        ("firstName".toList) NORMAL_REPLACEMENT
        [(("firstName".toList), Value.str ("Ana".toList)),
         (("phone".toList), Value.str ("123".toList))]
      = ("Hi Ana, Call me: 123".toList)) := by decide

/-- C9. ConditionalBlockOnly on a block with brace-free surroundings and
    brace-free inner content: when the profile value is exactly boolean true,
    only the two delimiter markers are removed and the inner content survives
    byte for byte; for any other value (boolean false, absent key, or any
    non-boolean value such as a non-empty string) the whole block, inner content
    included, is deleted. -/
theorem c9_conditional_block_only (kw a b c : Str) (d : Data)
    (hkw : goodKw kw) (ha : ∀ ch ∈ a, ch ≠ '{' ∧ ch ≠ '}')
    (hb : ∀ ch ∈ b, ch ≠ '{' ∧ ch ≠ '}') (hc : ∀ ch ∈ c, ch ≠ '{' ∧ ch ≠ '}') :
    (getV d kw = some (Value.bool true) →
      replace_template_variable (a ++ marker .opn kw ++ b ++ marker .cls kw ++ c)
        kw CUSTOM_PARAGRAPH_WITHOUT_VARIABLE d = a ++ b ++ c)
    ∧ (getV d kw ≠ some (Value.bool true) →
      replace_template_variable (a ++ marker .opn kw ++ b ++ marker .cls kw ++ c)
        kw CUSTOM_PARAGRAPH_WITHOUT_VARIABLE d = a ++ c) := by
  have htoks : a ++ marker .opn kw ++ b ++ marker .cls kw ++ c
      = flat [Tok.lit a, Tok.mark .opn kw, Tok.lit b, Tok.mark .cls kw, Tok.lit c] := by
    simp [flat, List.append_assoc]
  have hok : ∀ t ∈ [Tok.lit a, Tok.mark .opn kw, Tok.lit b, Tok.mark .cls kw, Tok.lit c],
      TokOk t := by
    intro t ht
    simp only [List.mem_cons, List.not_mem_nil, or_false] at ht
    rcases ht with rfl | rfl | rfl | rfl | rfl
    · exact ha
    · exact hkw
    · exact hb
    · exact hkw
    · exact hc
  constructor
  · intro htrue
    rw [rtv_withoutvar, if_pos htrue, htoks]
    unfold remove_tags
    rw [replaceAll_flat hkw [] _ hok]
    have hok2 : ∀ t ∈ substTok .opn kw []
        [Tok.lit a, Tok.mark .opn kw, Tok.lit b, Tok.mark .cls kw, Tok.lit c], TokOk t :=
      substTok_ok (by simp) hok
    rw [replaceAll_flat hkw [] _ hok2]
    simp only [substTok, List.map_cons, List.map_nil]
    norm_num [Tok.mark.injEq]
    simp [flat, List.append_assoc]
  · intro hother
    rw [rtv_withoutvar, if_neg hother, htoks]
    unfold remove_everything_between_tags
    rw [removeBlocks_flat hkw 5 _ (by simp) hok]
    have hdel : delBlocks kw
        [Tok.lit a, Tok.mark .opn kw, Tok.lit b, Tok.mark .cls kw, Tok.lit c]
        = [Tok.lit a, Tok.lit c] := by
      simp [delBlocks, delBlocksF, splitAtTok]
    rw [hdel]
    simp [flat]

/-- C9, witness: the gernePerDu scenario of the spec in both directions. -/
theorem c9_witness :
    replace_template_variable
      ("{gernePerDu/}Feel free to use first name{/gernePerDu}".toList)
      ("gernePerDu".toList) CUSTOM_PARAGRAPH_WITHOUT_VARIABLE
      [(("gernePerDu".toList), Value.bool true)]
      = ("Feel free to use first name".toList)
    ∧ replace_template_variable
      ("{gernePerDu/}Feel free to use first name{/gernePerDu}".toList)
      ("gernePerDu".toList) CUSTOM_PARAGRAPH_WITHOUT_VARIABLE
      [(("gernePerDu".toList), Value.bool false)]
      = [] := by
  have e1 : ("{gernePerDu/}Feel free to use first name{/gernePerDu}".toList)
      = [] ++ marker .opn ("gernePerDu".toList)
        ++ ("Feel free to use first name".toList)
        ++ marker .cls ("gernePerDu".toList) ++ [] := by decide
  constructor
  · have h := (c9_conditional_block_only ("gernePerDu".toList) []
      ("Feel free to use first name".toList) []
      [(("gernePerDu".toList), Value.bool true)]
      (by decide) (by decide) (by decide) (by decide)).1 (by decide)
    rw [e1, h]
    decide
  · have h := (c9_conditional_block_only ("gernePerDu".toList) []
      ("Feel free to use first name".toList) []
      [(("gernePerDu".toList), Value.bool false)]
      (by decide) (by decide) (by decide) (by decide)).2 (by decide)
    rw [e1, h]
    decide

/-- C10. The conditional modes act globally on the whole text, viewed as any
    benign token list: with a truthy value, ConditionalBlockWithValue turns
    every opening and every closing delimiter token of the keyword into the
    empty literal and every substitute token of the keyword — anywhere in the
    list, inside or outside blocks — into the value; with a falsy value it
    performs the structural block deletion delBlocks, which removes every
    non-greedy block of the keyword and nothing else. -/
theorem c10_global_modes (kw : Str) (d : Data) (ts : List Tok)
    (hkw : goodKw kw) (hok : ∀ t ∈ ts, TokOk t) :
    (truthyGet d kw = true →
      replace_template_variable (flat ts) kw CUSTOM_PARAGRAPH_WITH_VARIABLE d
        = flat (substTok .sub kw (valStr d kw)
            (substTok .cls kw [] (substTok .opn kw [] ts))))
    ∧ (truthyGet d kw = false →
      replace_template_variable (flat ts) kw CUSTOM_PARAGRAPH_WITH_VARIABLE d
        = flat (delBlocks kw ts)) := by
  constructor
  · intro htruthy
    rw [rtv_withvar, if_pos htruthy]
    unfold remove_tags
    have hok2 : ∀ t ∈ substTok .opn kw [] ts, TokOk t := substTok_ok (by simp) hok
    have hok3 : ∀ t ∈ substTok .cls kw [] (substTok .opn kw [] ts), TokOk t :=
      substTok_ok (by simp) hok2
    rw [replaceAll_flat hkw [] _ hok, replaceAll_flat hkw [] _ hok2,
      replaceAll_flat hkw _ _ hok3]
  · intro hfalsy
    rw [rtv_withvar, if_neg (by simp [hfalsy])]
    exact removeBlocks_flat hkw ts.length ts le_rfl hok

/-- C10, witness: a text with two phone blocks and a bare substitute marker
    outside any block; one engine call processes all of them. -/
theorem c10_witness :
    (replace_template_variable
      (flat [Tok.lit ("A".toList), Tok.mark .opn ("phone".toList),
        Tok.lit ("P: ".toList), Tok.mark .sub ("phone".toList),
        Tok.mark .cls ("phone".toList), Tok.lit ("B".toList),
        Tok.mark .opn ("phone".toList), Tok.lit ("Q".toList),
        Tok.mark .cls ("phone".toList), Tok.mark .sub ("phone".toList)])
      ("phone".toList) CUSTOM_PARAGRAPH_WITH_VARIABLE
      [(("phone".toList), Value.str ("123".toList))]
      = ("AP: 123BQ123".toList))
    ∧ (replace_template_variable
      (flat [Tok.lit ("A".toList), Tok.mark .opn ("phone".toList),
        Tok.lit ("P: ".toList), Tok.mark .sub ("phone".toList),
        Tok.mark .cls ("phone".toList), Tok.lit ("B".toList),
        Tok.mark .opn ("phone".toList), Tok.lit ("Q".toList),
        Tok.mark .cls ("phone".toList), Tok.mark .sub ("phone".toList)])
      ("phone".toList) CUSTOM_PARAGRAPH_WITH_VARIABLE
      [(("phone".toList), Value.str [])]
      = ("AB".toList ++ marker .sub ("phone".toList))) := by
  constructor
  · have h := (c10_global_modes ("phone".toList)
      [(("phone".toList), Value.str ("123".toList))]
      [Tok.lit ("A".toList), Tok.mark .opn ("phone".toList),
        Tok.lit ("P: ".toList), Tok.mark .sub ("phone".toList),
        Tok.mark .cls ("phone".toList), Tok.lit ("B".toList),
        Tok.mark .opn ("phone".toList), Tok.lit ("Q".toList),
        Tok.mark .cls ("phone".toList), Tok.mark .sub ("phone".toList)]
      (by decide) (by decide)).1 (by decide)
    rw [h]
    decide
  · have h := (c10_global_modes ("phone".toList)
      [(("phone".toList), Value.str [])]
      [Tok.lit ("A".toList), Tok.mark .opn ("phone".toList),
        Tok.lit ("P: ".toList), Tok.mark .sub ("phone".toList),
        Tok.mark .cls ("phone".toList), Tok.lit ("B".toList),
        Tok.mark .opn ("phone".toList), Tok.lit ("Q".toList),
        Tok.mark .cls ("phone".toList), Tok.mark .sub ("phone".toList)]
      (by decide) (by decide)).2 (by decide)
    rw [h]
    decide

/-! Normalizer lemmas: closed forms for the extraction loops and for the two
    dictionary shapes produced by process_user_data. -/

theorem phoneFold_eq :
    ∀ (l : List PhoneEntry) (p m : Str),
      phoneFold l (p, m)
        = (((l.reverse.find? fun e => e.type == ("work".toList)).map
              fun e => e.value).getD p,
           ((l.reverse.find? fun e => e.type == ("mobile".toList)).map
              fun e => e.value).getD m) := by
  intro l
  induction l with
  | nil => intro p m; rfl
  | cons e es ih =>
    intro p m
    show phoneFold es _ = _
    rw [List.reverse_cons, List.find?_append, List.find?_append]
    by_cases hw : e.type = ("work".toList)
    · rw [if_pos hw, ih e.value m]
      have h1 : List.find? (fun x => x.type == ("work".toList)) [e] = some e :=
        List.find?_cons_of_pos _ (by simp only [beq_iff_eq]; exact hw)
      have h2 : List.find? (fun x => x.type == ("mobile".toList)) [e] = none := by
        rw [List.find?_cons_of_neg _ (by simp only [beq_iff_eq]; rw [hw]; decide)]
        rfl
      rw [h1, h2]
      cases es.reverse.find? (fun x => x.type == ("work".toList)) <;>
        cases es.reverse.find? (fun x => x.type == ("mobile".toList)) <;>
          simp [Option.or]
    · rw [if_neg hw]
      by_cases hm : e.type = ("mobile".toList)
      · rw [if_pos hm, ih p e.value]
        have h1 : List.find? (fun x => x.type == ("work".toList)) [e] = none := by
          rw [List.find?_cons_of_neg _ (by simp only [beq_iff_eq]; exact hw)]
          rfl
        have h2 : List.find? (fun x => x.type == ("mobile".toList)) [e] = some e :=
          List.find?_cons_of_pos _ (by simp only [beq_iff_eq]; exact hm)
        rw [h1, h2]
        cases es.reverse.find? (fun x => x.type == ("work".toList)) <;>
          cases es.reverse.find? (fun x => x.type == ("mobile".toList)) <;>
            simp [Option.or]
      · rw [if_neg hm, ih p m]
        have h1 : List.find? (fun x => x.type == ("work".toList)) [e] = none := by
          rw [List.find?_cons_of_neg _ (by simp only [beq_iff_eq]; exact hw)]
          rfl
        have h2 : List.find? (fun x => x.type == ("mobile".toList)) [e] = none := by
          rw [List.find?_cons_of_neg _ (by simp only [beq_iff_eq]; exact hm)]
          rfl
        rw [h1, h2]
        cases es.reverse.find? (fun x => x.type == ("work".toList)) <;>
          cases es.reverse.find? (fun x => x.type == ("mobile".toList)) <;>
            simp [Option.or]

theorem addrFold_eq :
    ∀ (l : List AddressEntry) (a : Str),
      addrFold l a
        = ((l.reverse.find? fun e => e.type == ("work".toList)).map
            fun e => e.formatted).getD a := by
  intro l
  induction l with
  | nil => intro a; rfl
  | cons e es ih =>
    intro a
    show addrFold es _ = _
    rw [List.reverse_cons, List.find?_append]
    by_cases hw : e.type = ("work".toList)
    · rw [if_pos hw, ih e.formatted]
      have h1 : List.find? (fun x => x.type == ("work".toList)) [e] = some e :=
        List.find?_cons_of_pos _ (by simp only [beq_iff_eq]; exact hw)
      rw [h1]
      cases es.reverse.find? (fun x => x.type == ("work".toList)) <;> simp [Option.or]
    · rw [if_neg hw, ih a]
      have h1 : List.find? (fun x => x.type == ("work".toList)) [e] = none := by
        rw [List.find?_cons_of_neg _ (by simp only [beq_iff_eq]; exact hw)]
        rfl
      rw [h1]
      cases es.reverse.find? (fun x => x.type == ("work".toList)) <;> simp [Option.or]

theorem process_user_data_tech {r : RawRecord}
    (h : r.orgUnitPath = ("/Orga Accounts".toList)) :
    process_user_data r
      = [(("technicalUser".toList), .bool true),
         (("email".toList), .str r.primaryEmail),
         (("lastName".toList), .str r.familyName),
         (("address".toList), .str (addrFold r.addresses [])),
         (("phone".toList), .str (phoneFold r.phones ([], [])).1)] := by
  simp only [process_user_data]
  rw [if_pos h]

theorem process_user_data_nontech {r : RawRecord}
    (h : ¬ r.orgUnitPath = ("/Orga Accounts".toList)) :
    process_user_data r
      = [(("technicalUser".toList), .bool false),
         (("email".toList), .str r.primaryEmail),
         (("firstName".toList), .str r.givenName),
         (("lastName".toList), .str r.familyName),
         (("jobtitle".toList),
           .str (match r.organizations with | [] => [] | o :: _ => o.title)),
         (("address".toList), .str (addrFold r.addresses [])),
         (("department".toList),
           .str (match r.organizations with | [] => [] | o :: _ => o.department)),
         (("phone".toList), .str (phoneFold r.phones ([], [])).1),
         (("mobile".toList), .str (phoneFold r.phones ([], [])).2),
         (("pronouns".toList), .str r.Pronouns),
         (("gernePerDu".toList), .bool (decide (r.GernePerDu = ("yes".toList)))),
         (("conditionalLineBreak".toList),
           .bool (!(r.Pronouns.isEmpty && !(decide (r.GernePerDu = ("yes".toList)))))),
         (("managementRole".toList), .str r.Management_Role)] := by
  simp only [process_user_data]
  rw [if_neg h]

/-- C2, counterexample: on a record whose address list holds two work-tagged
    entries and whose phone list holds two work-tagged and two mobile-tagged
    entries, the normalizer keeps the SECOND (last) entry of each kind, not the
    first: the loop overwrites on every match, so the last match wins. -/
theorem c2_counterexample :
    getV (process_user_data recWithDuplicates) ("address".toList)
        = some (.str ("Second St 2".toList))
      ∧ ("Second St 2".toList) ≠ ("First St 1".toList)
      ∧ getV (process_user_data recWithDuplicates) ("phone".toList)
        = some (.str ("222".toList))
      ∧ getV (process_user_data recWithDuplicates) ("mobile".toList)
        = some (.str ("444".toList)) := by decide

/-- C2, amended. For every raw record, the normalizer selects the LAST
    work-tagged address entry as address (the first match of the reversed
    list), and likewise the last work-tagged phone and the last mobile-tagged
    phone — when multiple candidates exist the last match wins, because the
    extraction loops overwrite their accumulator on every matching entry. -/
theorem c2_amended (r : RawRecord) :
    getV (process_user_data r) ("address".toList)
      = some (.str (((r.addresses.reverse.find? fun e => e.type == ("work".toList)).map
          fun e => e.formatted).getD []))
    ∧ getV (process_user_data r) ("phone".toList)
      = some (.str (((r.phones.reverse.find? fun e => e.type == ("work".toList)).map
          fun e => e.value).getD []))
    ∧ (¬ r.orgUnitPath = ("/Orga Accounts".toList) →
      getV (process_user_data r) ("mobile".toList)
        = some (.str (((r.phones.reverse.find? fun e => e.type == ("mobile".toList)).map
            fun e => e.value).getD []))) := by
  by_cases htech : r.orgUnitPath = ("/Orga Accounts".toList)
  · rw [process_user_data_tech htech]
    refine ⟨?_, ?_, fun hn => absurd htech hn⟩
    · show some (Value.str (addrFold r.addresses [])) = _
      rw [addrFold_eq]
    · show some (Value.str (phoneFold r.phones ([], [])).1) = _
      rw [phoneFold_eq]
  · rw [process_user_data_nontech htech]
    refine ⟨?_, ?_, fun _ => ?_⟩
    · show some (Value.str (addrFold r.addresses [])) = _
      rw [addrFold_eq]
    · show some (Value.str (phoneFold r.phones ([], [])).1) = _
      rw [phoneFold_eq]
    · show some (Value.str (phoneFold r.phones ([], [])).2) = _
      rw [phoneFold_eq]

/-- C2, witness for the amended theorem: the mobile clause evaluated on the
    duplicate-laden record. -/
theorem c2_witness :
    getV (process_user_data recWithDuplicates) ("mobile".toList)
      = some (.str (((recWithDuplicates.phones.reverse.find?
          fun e => e.type == ("mobile".toList)).map fun e => e.value).getD [])) :=
  (c2_amended recWithDuplicates).2.2 (by decide)

/-- C3. The profile's technical flag is true exactly when the record's
    organizational-unit path equals the reserved technical path; a technical
    profile consists of exactly the keys technicalUser, email, lastName,
    address, phone, with every technical-only key absent; a non-technical
    profile carries exactly the full thirteen-key shape. The key set is thus
    fully determined by the technical flag and the two shapes never mix. -/
theorem c3_technical_shape (r : RawRecord) :
    ((getV (process_user_data r) ("technicalUser".toList) = some (.bool true))
      ↔ r.orgUnitPath = ("/Orga Accounts".toList))
    ∧ (r.orgUnitPath = ("/Orga Accounts".toList) →
        (process_user_data r).map Prod.fst
          = [("technicalUser".toList), ("email".toList), ("lastName".toList),
             ("address".toList), ("phone".toList)]
        ∧ getV (process_user_data r) ("firstName".toList) = none
        ∧ getV (process_user_data r) ("jobtitle".toList) = none
        ∧ getV (process_user_data r) ("department".toList) = none
        ∧ getV (process_user_data r) ("mobile".toList) = none
        ∧ getV (process_user_data r) ("pronouns".toList) = none
        ∧ getV (process_user_data r) ("gernePerDu".toList) = none
        ∧ getV (process_user_data r) ("conditionalLineBreak".toList) = none
        ∧ getV (process_user_data r) ("managementRole".toList) = none)
    ∧ (¬ r.orgUnitPath = ("/Orga Accounts".toList) →
        (process_user_data r).map Prod.fst
          = [("technicalUser".toList), ("email".toList), ("firstName".toList),
             ("lastName".toList), ("jobtitle".toList), ("address".toList),
             ("department".toList), ("phone".toList), ("mobile".toList),
             ("pronouns".toList), ("gernePerDu".toList),
             ("conditionalLineBreak".toList), ("managementRole".toList)]) := by
  by_cases htech : r.orgUnitPath = ("/Orga Accounts".toList)
  · rw [process_user_data_tech htech]
    exact ⟨⟨fun _ => htech, fun _ => rfl⟩,
      fun _ => ⟨rfl, rfl, rfl, rfl, rfl, rfl, rfl, rfl, rfl⟩,
      fun hn => absurd htech hn⟩
  · rw [process_user_data_nontech htech]
    refine ⟨⟨fun h => ?_, fun h => absurd h htech⟩, fun h => absurd h htech, fun _ => rfl⟩
    have h2 : some (Value.bool false) = some (Value.bool true) := h
    exact absurd (Value.bool.inj (Option.some.inj h2)) (by decide)

/-- C3, witness: the technical sample record produces the minimal five-key
    shape with the firstName key absent. -/
theorem c3_witness :
    (process_user_data recTechnical).map Prod.fst
      = [("technicalUser".toList), ("email".toList), ("lastName".toList),
         ("address".toList), ("phone".toList)]
    ∧ getV (process_user_data recTechnical) ("firstName".toList) = none := by
  have h := (c3_technical_shape recTechnical).2.1 (by decide)
  exact ⟨h.1, h.2.1⟩

/-- C4. For every non-technical record, gernePerDu is true exactly when the
    custom attribute equals the literal string yes, and the pronoun-line flag
    conditionalLineBreak is true unless the pronouns string is empty and
    gernePerDu is false — the negation of that conjunction. -/
theorem c4_flags (r : RawRecord) (h : ¬ r.orgUnitPath = ("/Orga Accounts".toList)) :
    ((getV (process_user_data r) ("gernePerDu".toList) = some (.bool true))
      ↔ r.GernePerDu = ("yes".toList))
    ∧ ((getV (process_user_data r) ("conditionalLineBreak".toList) = some (.bool true))
      ↔ ¬ (r.Pronouns = [] ∧ ¬ r.GernePerDu = ("yes".toList))) := by
  rw [process_user_data_nontech h]
  constructor
  · show (some (Value.bool (decide (r.GernePerDu = ("yes".toList))))
        = some (Value.bool true)) ↔ _
    simp [decide_eq_true_eq]
  · show (some (Value.bool (!(r.Pronouns.isEmpty
          && !(decide (r.GernePerDu = ("yes".toList))))))
        = some (Value.bool true)) ↔ _
    simp [decide_eq_true_eq, List.isEmpty_iff]
    tauto

/-- C4, witness: empty pronouns with the attribute yes give gernePerDu true and
    a visible pronoun line. -/
theorem c4_witness :
    getV (process_user_data recStandard) ("gernePerDu".toList) = some (.bool true)
    ∧ getV (process_user_data recStandard) ("conditionalLineBreak".toList)
      = some (.bool true) :=
  ⟨(c4_flags recStandard (by decide)).1.mpr (by decide),
   (c4_flags recStandard (by decide)).2.mpr (by decide)⟩

theorem isPrefixOf_eq_false_iff {p t : Str} :
    (p.isPrefixOf t = false) ↔ ¬ ∃ s, t = p ++ s := by
  rw [← isPrefixOf_iff]
  cases p.isPrefixOf t <;> simp

theorem hasSubstr_eq_false_iff {p t : Str} (hp : p ≠ []) :
    (hasSubstr p t = false) ↔ ¬ ∃ a b, t = a ++ p ++ b := by
  rw [← hasSubstr_iff hp]
  cases hasSubstr p t <;> simp

/-- C5. The relevance filter accepts a record exactly when it is neither
    suspended nor archived, its organizational-unit path starts with neither
    reserved prefix, the path is neither the reserved external path nor the
    root, the primary email does not contain the substring external, and the
    primary email is neither reserved service account. The predicate is a total
    function on records (with absent fields already collapsed to defaults), so
    it is deterministic and total by construction. -/
theorem c5_relevance_iff (u : RawRecord) :
    check_user_for_relevance u = true
      ↔ (u.suspended = false ∧ u.archived = false
        ∧ ¬ (∃ rest, u.orgUnitPath = ("/Deactivated".toList) ++ rest)
        ∧ ¬ (∃ rest, u.orgUnitPath = ("/Cloud Identities".toList) ++ rest)
        ∧ u.orgUnitPath ≠ ("/Xternal/No drive".toList)
        ∧ u.orgUnitPath ≠ ("/".toList)
        ∧ ¬ (∃ a b, u.primaryEmail = a ++ ("external".toList) ++ b)
        ∧ u.primaryEmail ≠ ("kaiser.soze@kaiser-x.com".toList)
        ∧ u.primaryEmail ≠ ("google_tech@kaiser-x.com".toList)) := by
  unfold check_user_for_relevance
  simp only [Bool.and_eq_true, Bool.not_eq_true', beq_eq_false_iff_ne, ne_eq,
    isPrefixOf_eq_false_iff,
    hasSubstr_eq_false_iff (show ("external".toList : Str) ≠ [] by decide),
    and_assoc]

/-- C7. The Assembler applies the Template Engine once per entry of the fixed
    ordered field list — lastName, address, phone, email in their declared
    modes for every profile, continued by firstName, jobtitle, managementRole,
    pronouns, gernePerDu, conditionalLineBreak, mobile for non-technical
    profiles, while technical profiles get exactly the common subset — and then
    substitutes the company and web constants last, unconditionally:
    build_signature coincides with the assembler transcribed from the spec. -/
theorem c7_assembler_order (t : Str) (d : Data) :
    build_signature t d = assemble_per_spec t d := by
  simp only [build_signature, assemble_per_spec]
  by_cases h : truthyGet d ("technicalUser".toList) = true
  · rw [if_pos h, if_pos h]
    rfl
  · rw [if_neg h, if_neg h]
    rfl

/-! Support lemmas for the well-formedness invariant. -/

theorem getV_mem : ∀ {d : Data} {k : Str} {v : Value}, getV d k = some v → (k, v) ∈ d := by
  intro d
  induction d with
  | nil => intro k v h; cases h
  | cons kv d ih =>
    intro k v h
    obtain ⟨k', v'⟩ := kv
    simp only [getV] at h
    by_cases hk : k' = k
    · rw [if_pos hk] at h
      cases h
      subst hk
      exact List.mem_cons_self _ _
    · rw [if_neg hk] at h
      exact List.mem_cons_of_mem _ (ih h)

theorem valStr_ok {d : Data} (hd : DataOk d) (k : Str) :
    ∀ c ∈ valStr d k, c ≠ '{' ∧ c ≠ '}' := by
  unfold valStr
  cases hv : getV d k with
  | none =>
    intro c hc
    cases hc
  | some v => exact hd (k, v) (getV_mem hv)

theorem wf_ok {P : List (Str × Str)} {ts : List Tok}
    (hg : ∀ p ∈ P, goodKw p.1) (hwf : Wf P ts) : ∀ t ∈ ts, TokOk t := by
  induction hwf with
  | nil => intro t ht; cases ht
  | lit hs hw ih =>
    intro t ht
    rcases List.mem_cons.mp ht with rfl | ht'
    · exact hs
    · exact ih t ht'
  | subm hmem hw ih =>
    intro t ht
    rcases List.mem_cons.mp ht with rfl | ht'
    · rcases hmem with hm | rfl | rfl
      · exact hg _ hm
      · decide
      · decide
    · exact ih t ht'
  | blk hmem hmode hinner hw ih =>
    intro t ht
    rcases List.mem_cons.mp ht with rfl | ht'
    · exact hg _ hmem
    · rcases List.mem_append.mp ht' with hin | hcls
      · have hi := hinner t hin
        cases t with
        | lit s => exact hi
        | mark mk k =>
          cases mk with
          | sub =>
            rcases hi with hm | rfl | rfl | ⟨rfl, -⟩
            · exact hg _ hm
            · decide
            · decide
            · exact hg _ hmem
          | opn => exact hi.elim
          | cls => exact hi.elim
      · rcases List.mem_cons.mp hcls with rfl | hts
        · exact hg _ hmem
        · exact ih t hts

theorem Wf_append_top {P : List (Str × Str)} :
    ∀ {xs ys : List Tok}, (∀ t ∈ xs, TopOk P t) → Wf P ys → Wf P (xs ++ ys) := by
  intro xs
  induction xs with
  | nil =>
    intro ys _ h
    exact h
  | cons t xs ih =>
    intro ys hx hy
    have ht := hx t (by simp)
    have hxs : ∀ t' ∈ xs, TopOk P t' := fun t' h' => hx t' (List.mem_cons_of_mem _ h')
    cases t with
    | lit s => exact Wf.lit ht (ih hxs hy)
    | mark mk k =>
      cases mk with
      | sub => exact Wf.subm ht (ih hxs hy)
      | opn => exact ht.elim
      | cls => exact ht.elim

theorem substTok_comp (kw v : Str) (ts : List Tok) :
    substTok .sub kw v (substTok .cls kw [] (substTok .opn kw [] ts))
      = ts.map (stripSub kw v) := by
  unfold substTok
  rw [List.map_map, List.map_map]
  apply List.map_congr_left
  intro t _
  simp only [Function.comp_apply]
  by_cases h1 : t = Tok.mark .opn kw
  · simp [stripSub, h1]
  · by_cases h2 : t = Tok.mark .cls kw
    · simp [stripSub, h1, h2]
    · by_cases h3 : t = Tok.mark .sub kw
      · simp [stripSub, h1, h2, h3]
      · simp [stripSub, h1, h2, h3]

theorem substTok_comp2 (kw : Str) (ts : List Tok) :
    substTok .cls kw [] (substTok .opn kw [] ts) = ts.map (stripTags kw) := by
  unfold substTok
  rw [List.map_map]
  apply List.map_congr_left
  intro t _
  simp only [Function.comp_apply]
  by_cases h1 : t = Tok.mark .opn kw
  · simp [stripTags, h1]
  · by_cases h2 : t = Tok.mark .cls kw
    · simp [stripTags, h1, h2]
    · simp [stripTags, h1, h2]

theorem splitAtTok_first {t0 : Tok} :
    ∀ {a : List Tok} (b : List Tok), t0 ∉ a → splitAtTok t0 (a ++ t0 :: b) = some (a, b) := by
  intro a
  induction a with
  | nil =>
    intro b _
    show splitAtTok t0 (t0 :: b) = _
    simp [splitAtTok]
  | cons x xs ih =>
    intro b hmem
    have hx : x ≠ t0 := fun h => hmem (by simp [h])
    show splitAtTok t0 (x :: (xs ++ t0 :: b)) = _
    simp only [splitAtTok]
    rw [if_neg hx, ih b (fun h => hmem (List.mem_cons_of_mem _ h))]
    rfl

theorem delBlocks_append_no_open {kw : Str} :
    ∀ {xs : List Tok} (ys : List Tok), (∀ t ∈ xs, t ≠ Tok.mark .opn kw) →
      delBlocks kw (xs ++ ys) = xs ++ delBlocks kw ys := by
  intro xs
  induction xs with
  | nil => intro ys _; rfl
  | cons x xs ih =>
    intro ys hx
    rw [List.cons_append, delBlocks_cons_notopen (hx x (by simp)),
      ih ys (fun t ht => hx t (List.mem_cons_of_mem _ ht))]
    rfl

theorem delBlocks_subset {kw : Str} :
    ∀ (n : Nat) (ts : List Tok), ts.length ≤ n → ∀ t ∈ delBlocks kw ts, t ∈ ts := by
  intro n
  induction n with
  | zero =>
    intro ts ht t h
    have hnil : ts = [] := List.eq_nil_of_length_eq_zero (Nat.le_zero.mp ht)
    subst hnil
    cases h
  | succ n ih =>
    intro ts ht t h
    cases ts with
    | nil => cases h
    | cons x ts' =>
      simp only [List.length_cons] at ht
      by_cases hx : x = Tok.mark .opn kw
      · subst hx
        cases hsp : splitAtTok (Tok.mark .cls kw) ts' with
        | some pr =>
          obtain ⟨a, b⟩ := pr
          rw [delBlocks_cons_open_some hsp] at h
          obtain ⟨hdec, -⟩ := splitAtTok_eq_some hsp
          have hlen := congrArg List.length hdec
          simp only [List.length_append, List.length_cons] at hlen
          have hmem := ih b (by omega) t h
          refine List.mem_cons_of_mem _ ?_
          rw [hdec]
          exact List.mem_append_right _ (List.mem_cons_of_mem _ hmem)
        | none =>
          rw [delBlocks_cons_open_none hsp] at h
          rcases List.mem_cons.mp h with rfl | h'
          · exact List.mem_cons_self _ _
          · exact List.mem_cons_of_mem _ (ih ts' (by omega) t h')
      · rw [delBlocks_cons_notopen hx] at h
        rcases List.mem_cons.mp h with rfl | h'
        · exact List.mem_cons_self _ _
        · exact List.mem_cons_of_mem _ (ih ts' (by omega) t h')

theorem substTok_cons (mk : MK) (kw r : Str) (t : Tok) (ts : List Tok) :
    substTok mk kw r (t :: ts)
      = (if t = .mark mk kw then .lit r else t) :: substTok mk kw r ts := rfl

theorem substTok_append (mk : MK) (kw r : Str) (a b : List Tok) :
    substTok mk kw r (a ++ b) = substTok mk kw r a ++ substTok mk kw r b :=
  List.map_append _ a b

theorem pair_fst_eq {A B : Type} {a c : A} {b d : B} (h : (a, b) = (c, d)) : a = c :=
  congrArg Prod.fst h

theorem pair_snd_eq {A B : Type} {a c : A} {b d : B} (h : (a, b) = (c, d)) : b = d :=
  congrArg Prod.snd h

/-! Preservation of well-formedness under each kind of engine pass. -/

theorem wf_step_normal {kw v : Str} {P : List (Str × Str)} {ts : List Tok}
    (hv : ∀ c ∈ v, c ≠ '{' ∧ c ≠ '}')
    (hptail : ∀ p ∈ P, p.1 ≠ kw)
    (hwf : Wf ((kw, NORMAL_REPLACEMENT) :: P) ts) :
    Wf P (substTok .sub kw v ts) := by
  induction hwf with
  | nil => exact Wf.nil
  | @lit s ts hs hw ih =>
    rw [substTok_cons, if_neg (by simp)]
    exact Wf.lit hs ih
  | @subm k ts hmem hw ih =>
    rw [substTok_cons]
    by_cases hk : k = kw
    · subst hk
      rw [if_pos rfl]
      exact Wf.lit hv ih
    · rw [if_neg (by simp [hk])]
      refine Wf.subm ?_ ih
      rcases hmem with hm | rfl | rfl
      · rcases List.mem_cons.mp hm with heq | hm'
        · exact absurd (pair_fst_eq heq) hk
        · exact Or.inl hm'
      · exact Or.inr (Or.inl rfl)
      · exact Or.inr (Or.inr rfl)
  | @blk k m inner ts hmem hmode hinner hw ih =>
    rcases List.mem_cons.mp hmem with heq | hm'
    · have hm2 : m = NORMAL_REPLACEMENT := pair_snd_eq heq
      rcases hmode with h | h <;> rw [hm2] at h
      · exact absurd h (by decide)
      · exact absurd h (by decide)
    · rw [substTok_cons, if_neg (by simp), substTok_append, substTok_cons,
        if_neg (by simp)]
      refine Wf.blk hm' hmode ?_ ih
      intro t ht
      rcases List.mem_map.mp ht with ⟨t0, ht0, rfl⟩
      have hi := hinner t0 ht0
      by_cases h0 : t0 = Tok.mark .sub kw
      · rw [if_pos h0]
        exact hv
      · rw [if_neg h0]
        cases t0 with
        | lit s => exact hi
        | mark mk2 k2 =>
          cases mk2 with
          | sub =>
            rcases hi with hm2 | rfl | rfl | hkv
            · rcases List.mem_cons.mp hm2 with heq2 | hm2'
              · have hk2 : k2 = kw := pair_fst_eq heq2
                exact absurd (by rw [hk2]) h0
              · exact Or.inl hm2'
            · exact Or.inr (Or.inl rfl)
            · exact Or.inr (Or.inr (Or.inl rfl))
            · exact Or.inr (Or.inr (Or.inr hkv))
          | opn => exact hi.elim
          | cls => exact hi.elim

theorem wf_step_del {kw m : Str} {P : List (Str × Str)} {ts : List Tok}
    (hmode : m = CUSTOM_PARAGRAPH_WITH_VARIABLE ∨ m = CUSTOM_PARAGRAPH_WITHOUT_VARIABLE)
    (hptail : ∀ p ∈ P, p.1 ≠ kw)
    (hwf : Wf ((kw, m) :: P) ts) : Wf P (delBlocks kw ts) := by
  induction hwf with
  | nil => exact Wf.nil
  | @lit s ts hs hw ih =>
    rw [delBlocks_cons_notopen (by simp)]
    exact Wf.lit hs ih
  | @subm k ts hmem hw ih =>
    rw [delBlocks_cons_notopen (by simp)]
    refine Wf.subm ?_ ih
    rcases hmem with hm | rfl | rfl
    · rcases List.mem_cons.mp hm with heq | hm'
      · rcases hmode with rfl | rfl
        · exact absurd (pair_snd_eq heq) (by decide)
        · exact absurd (pair_snd_eq heq) (by decide)
      · exact Or.inl hm'
    · exact Or.inr (Or.inl rfl)
    · exact Or.inr (Or.inr rfl)
  | @blk k m2 inner ts hmem hmode2 hinner hw ih =>
    by_cases hk : k = kw
    · subst hk
      have hnotin : Tok.mark .cls k ∉ inner := by
        intro hmem2
        exact (hinner _ hmem2).elim
      rw [delBlocks_cons_open_some (splitAtTok_first ts hnotin)]
      exact ih
    · have hne : Tok.mark .opn k ≠ Tok.mark .opn kw := by simp [hk]
      have hinner_ne : ∀ t ∈ inner, t ≠ Tok.mark .opn kw := by
        intro t ht
        have hi := hinner t ht
        cases t with
        | lit s => simp
        | mark mk2 k2 =>
          cases mk2 with
          | sub => simp
          | opn => exact hi.elim
          | cls => exact hi.elim
      rw [delBlocks_cons_notopen hne, delBlocks_append_no_open _ hinner_ne,
        delBlocks_cons_notopen (by simp)]
      refine Wf.blk ?_ hmode2 ?_ ih
      · rcases List.mem_cons.mp hmem with heq | hm'
        · exact absurd (pair_fst_eq heq) hk
        · exact hm'
      · intro t ht
        have hi := hinner t ht
        cases t with
        | lit s => exact hi
        | mark mk2 k2 =>
          cases mk2 with
          | sub =>
            rcases hi with hm2 | rfl | rfl | hkv
            · rcases List.mem_cons.mp hm2 with heq2 | hm2'
              · rcases hmode with rfl | rfl
                · exact absurd (pair_snd_eq heq2) (by decide)
                · exact absurd (pair_snd_eq heq2) (by decide)
              · exact Or.inl hm2'
            · exact Or.inr (Or.inl rfl)
            · exact Or.inr (Or.inr (Or.inl rfl))
            · exact Or.inr (Or.inr (Or.inr hkv))
          | opn => exact hi.elim
          | cls => exact hi.elim

theorem wf_step_stripSub {kw v : Str} {P : List (Str × Str)} {ts : List Tok}
    (hv : ∀ c ∈ v, c ≠ '{' ∧ c ≠ '}')
    (hkc : kw ≠ ("company".toList)) (hkweb : kw ≠ ("web".toList))
    (hptail : ∀ p ∈ P, p.1 ≠ kw)
    (hwf : Wf ((kw, CUSTOM_PARAGRAPH_WITH_VARIABLE) :: P) ts) :
    Wf P (ts.map (stripSub kw v)) := by
  induction hwf with
  | nil => exact Wf.nil
  | @lit s ts hs hw ih =>
    rw [List.map_cons, show stripSub kw v (Tok.lit s) = Tok.lit s by simp [stripSub]]
    exact Wf.lit hs ih
  | @subm k ts hmem hw ih =>
    have hk : k ≠ kw := by
      rcases hmem with hm | rfl | rfl
      · rcases List.mem_cons.mp hm with heq | hm'
        · exact absurd (pair_snd_eq heq) (by decide)
        · exact hptail _ hm'
      · exact hkc.symm
      · exact hkweb.symm
    rw [List.map_cons,
      show stripSub kw v (Tok.mark .sub k) = Tok.mark .sub k by simp [stripSub, hk]]
    refine Wf.subm ?_ ih
    rcases hmem with hm | rfl | rfl
    · rcases List.mem_cons.mp hm with heq | hm'
      · exact absurd (pair_snd_eq heq) (by decide)
      · exact Or.inl hm'
    · exact Or.inr (Or.inl rfl)
    · exact Or.inr (Or.inr rfl)
  | @blk k m2 inner ts hmem hmode2 hinner hw ih =>
    rw [List.map_cons, List.map_append, List.map_cons]
    by_cases hk : k = kw
    · subst hk
      rw [show stripSub k v (Tok.mark .opn k) = Tok.lit [] by simp [stripSub],
        show stripSub k v (Tok.mark .cls k) = Tok.lit [] by simp [stripSub]]
      refine Wf.lit (by intro c hc; cases hc) (Wf_append_top ?_ (Wf.lit (by intro c hc; cases hc) ih))
      intro t ht
      rcases List.mem_map.mp ht with ⟨t0, ht0, rfl⟩
      have hi := hinner t0 ht0
      cases t0 with
      | lit s =>
        rw [show stripSub k v (Tok.lit s) = Tok.lit s by simp [stripSub]]
        exact hi
      | mark mk2 k2 =>
        cases mk2 with
        | sub =>
          by_cases hk2 : k2 = k
          · subst hk2
            rw [show stripSub k2 v (Tok.mark .sub k2) = Tok.lit v by simp [stripSub]]
            exact hv
          · rw [show stripSub k v (Tok.mark .sub k2) = Tok.mark .sub k2 by
              simp [stripSub, hk2]]
            rcases hi with hm2 | rfl | rfl | ⟨heq, -⟩
            · rcases List.mem_cons.mp hm2 with heq2 | hm2'
              · exact absurd (pair_snd_eq heq2) (by decide)
              · exact Or.inl hm2'
            · exact Or.inr (Or.inl rfl)
            · exact Or.inr (Or.inr rfl)
            · exact absurd heq hk2
        | opn => exact hi.elim
        | cls => exact hi.elim
    · rw [show stripSub kw v (Tok.mark .opn k) = Tok.mark .opn k by simp [stripSub, hk],
        show stripSub kw v (Tok.mark .cls k) = Tok.mark .cls k by simp [stripSub, hk]]
      refine Wf.blk ?_ hmode2 ?_ ih
      · rcases List.mem_cons.mp hmem with heq | hm'
        · exact absurd (pair_fst_eq heq) hk
        · exact hm'
      · intro t ht
        rcases List.mem_map.mp ht with ⟨t0, ht0, rfl⟩
        have hi := hinner t0 ht0
        cases t0 with
        | lit s =>
          rw [show stripSub kw v (Tok.lit s) = Tok.lit s by simp [stripSub]]
          exact hi
        | mark mk2 k2 =>
          cases mk2 with
          | sub =>
            by_cases hk2 : k2 = kw
            · subst hk2
              rw [show stripSub k2 v (Tok.mark .sub k2) = Tok.lit v by simp [stripSub]]
              exact hv
            · rw [show stripSub kw v (Tok.mark .sub k2) = Tok.mark .sub k2 by
                simp [stripSub, hk2]]
              rcases hi with hm2 | rfl | rfl | hkv
              · rcases List.mem_cons.mp hm2 with heq2 | hm2'
                · exact absurd (pair_snd_eq heq2) (by decide)
                · exact Or.inl hm2'
              · exact Or.inr (Or.inl rfl)
              · exact Or.inr (Or.inr (Or.inl rfl))
              · exact Or.inr (Or.inr (Or.inr hkv))
          | opn => exact hi.elim
          | cls => exact hi.elim

theorem wf_step_stripTags {kw : Str} {P : List (Str × Str)} {ts : List Tok}
    (hkc : kw ≠ ("company".toList)) (hkweb : kw ≠ ("web".toList))
    (hptail : ∀ p ∈ P, p.1 ≠ kw)
    (hwf : Wf ((kw, CUSTOM_PARAGRAPH_WITHOUT_VARIABLE) :: P) ts) :
    Wf P (ts.map (stripTags kw)) := by
  induction hwf with
  | nil => exact Wf.nil
  | @lit s ts hs hw ih =>
    rw [List.map_cons, show stripTags kw (Tok.lit s) = Tok.lit s by simp [stripTags]]
    exact Wf.lit hs ih
  | @subm k ts hmem hw ih =>
    rw [List.map_cons,
      show stripTags kw (Tok.mark .sub k) = Tok.mark .sub k by simp [stripTags]]
    refine Wf.subm ?_ ih
    rcases hmem with hm | rfl | rfl
    · rcases List.mem_cons.mp hm with heq | hm'
      · exact absurd (pair_snd_eq heq) (by decide)
      · exact Or.inl hm'
    · exact Or.inr (Or.inl rfl)
    · exact Or.inr (Or.inr rfl)
  | @blk k m2 inner ts hmem hmode2 hinner hw ih =>
    rw [List.map_cons, List.map_append, List.map_cons]
    by_cases hk : k = kw
    · subst hk
      rw [show stripTags k (Tok.mark .opn k) = Tok.lit [] by simp [stripTags],
        show stripTags k (Tok.mark .cls k) = Tok.lit [] by simp [stripTags]]
      refine Wf.lit (by intro c hc; cases hc) (Wf_append_top ?_ (Wf.lit (by intro c hc; cases hc) ih))
      intro t ht
      rcases List.mem_map.mp ht with ⟨t0, ht0, rfl⟩
      have hi := hinner t0 ht0
      cases t0 with
      | lit s =>
        rw [show stripTags k (Tok.lit s) = Tok.lit s by simp [stripTags]]
        exact hi
      | mark mk2 k2 =>
        cases mk2 with
        | sub =>
          rw [show stripTags k (Tok.mark .sub k2) = Tok.mark .sub k2 by simp [stripTags]]
          rcases hi with hm2 | rfl | rfl | ⟨heq, hwv⟩
          · rcases List.mem_cons.mp hm2 with heq2 | hm2'
            · exact absurd (pair_snd_eq heq2) (by decide)
            · exact Or.inl hm2'
          · exact Or.inr (Or.inl rfl)
          · exact Or.inr (Or.inr rfl)
          · rcases List.mem_cons.mp hmem with heqm | hmm'
            · have hm2eq : m2 = CUSTOM_PARAGRAPH_WITHOUT_VARIABLE := pair_snd_eq heqm
              rw [hm2eq] at hwv
              exact absurd hwv (by decide)
            · exact absurd (rfl : k = k) (hptail _ hmm')
        | opn => exact hi.elim
        | cls => exact hi.elim
    · rw [show stripTags kw (Tok.mark .opn k) = Tok.mark .opn k by simp [stripTags, hk],
        show stripTags kw (Tok.mark .cls k) = Tok.mark .cls k by simp [stripTags, hk]]
      refine Wf.blk ?_ hmode2 ?_ ih
      · rcases List.mem_cons.mp hmem with heq | hm'
        · exact absurd (pair_fst_eq heq) hk
        · exact hm'
      · intro t ht
        rcases List.mem_map.mp ht with ⟨t0, ht0, rfl⟩
        have hi := hinner t0 ht0
        cases t0 with
        | lit s =>
          rw [show stripTags kw (Tok.lit s) = Tok.lit s by simp [stripTags]]
          exact hi
        | mark mk2 k2 =>
          cases mk2 with
          | sub =>
            rw [show stripTags kw (Tok.mark .sub k2) = Tok.mark .sub k2 by
              simp [stripTags]]
            rcases hi with hm2 | rfl | rfl | hkv
            · rcases List.mem_cons.mp hm2 with heq2 | hm2'
              · exact absurd (pair_snd_eq heq2) (by decide)
              · exact Or.inl hm2'
            · exact Or.inr (Or.inl rfl)
            · exact Or.inr (Or.inr (Or.inl rfl))
            · exact Or.inr (Or.inr (Or.inr hkv))
          | opn => exact hi.elim
          | cls => exact hi.elim

theorem wf_step {d : Data} {kw m : Str} {P : List (Str × Str)} {ts : List Tok}
    (hd : DataOk d) (hkc : kw ≠ ("company".toList)) (hkweb : kw ≠ ("web".toList))
    (hptail : ∀ p ∈ P, p.1 ≠ kw)
    (hm3 : m = NORMAL_REPLACEMENT ∨ m = CUSTOM_PARAGRAPH_WITH_VARIABLE
        ∨ m = CUSTOM_PARAGRAPH_WITHOUT_VARIABLE)
    (hwf : Wf ((kw, m) :: P) ts) : Wf P (stepTok d kw m ts) := by
  unfold stepTok
  rcases hm3 with rfl | rfl | rfl
  · rw [if_pos rfl]
    exact wf_step_normal (valStr_ok hd kw) hptail hwf
  · rw [if_neg (by decide), if_pos rfl]
    by_cases ht : truthyGet d kw = true
    · rw [if_pos ht, substTok_comp]
      exact wf_step_stripSub (valStr_ok hd kw) hkc hkweb hptail hwf
    · rw [if_neg ht]
      exact wf_step_del (Or.inl rfl) hptail hwf
  · rw [if_neg (by decide), if_neg (by decide), if_pos rfl]
    by_cases hb : getV d kw = some (Value.bool true)
    · rw [if_pos hb, substTok_comp2]
      exact wf_step_stripTags hkc hkweb hptail hwf
    · rw [if_neg hb]
      exact wf_step_del (Or.inr rfl) hptail hwf

theorem passTok {d : Data} {kw op : Str} {ts : List Tok}
    (hkw : goodKw kw) (hok : ∀ t ∈ ts, TokOk t) :
    replace_template_variable (flat ts) kw op d = flat (stepTok d kw op ts) := by
  unfold stepTok replace_template_variable
  by_cases h1 : op = NORMAL_REPLACEMENT
  · rw [if_pos h1, if_pos h1]
    exact replaceAll_flat hkw _ ts hok
  · rw [if_neg h1, if_neg h1]
    by_cases h2 : op = CUSTOM_PARAGRAPH_WITH_VARIABLE
    · rw [if_pos h2, if_pos h2]
      by_cases h3 : truthyGet d kw = true
      · rw [if_pos h3, if_pos h3]
        unfold remove_tags
        have hok2 : ∀ t ∈ substTok .opn kw [] ts, TokOk t := substTok_ok (by simp) hok
        have hok3 : ∀ t ∈ substTok .cls kw [] (substTok .opn kw [] ts), TokOk t :=
          substTok_ok (by simp) hok2
        rw [replaceAll_flat hkw [] ts hok, replaceAll_flat hkw [] _ hok2,
          replaceAll_flat hkw _ _ hok3]
      · rw [if_neg h3, if_neg h3]
        exact removeBlocks_flat hkw ts.length ts le_rfl hok
    · rw [if_neg h2, if_neg h2]
      by_cases h4 : op = CUSTOM_PARAGRAPH_WITHOUT_VARIABLE
      · rw [if_pos h4, if_pos h4]
        by_cases h5 : getV d kw = some (Value.bool true)
        · rw [if_pos h5, if_pos h5]
          unfold remove_tags
          have hok2 : ∀ t ∈ substTok .opn kw [] ts, TokOk t := substTok_ok (by simp) hok
          rw [replaceAll_flat hkw [] ts hok, replaceAll_flat hkw [] _ hok2]
        · rw [if_neg h5, if_neg h5]
          exact removeBlocks_flat hkw ts.length ts le_rfl hok
      · rw [if_neg h4, if_neg h4]

theorem stepTok_ok {d : Data} {kw op : Str} {ts : List Tok}
    (hd : DataOk d) (hok : ∀ t ∈ ts, TokOk t) :
    ∀ t ∈ stepTok d kw op ts, TokOk t := by
  unfold stepTok
  by_cases h1 : op = NORMAL_REPLACEMENT
  · rw [if_pos h1]
    exact substTok_ok (valStr_ok hd kw) hok
  · rw [if_neg h1]
    by_cases h2 : op = CUSTOM_PARAGRAPH_WITH_VARIABLE
    · rw [if_pos h2]
      by_cases h3 : truthyGet d kw = true
      · rw [if_pos h3]
        exact substTok_ok (valStr_ok hd kw) (substTok_ok (by simp) (substTok_ok (by simp) hok))
      · rw [if_neg h3]
        intro t ht
        exact hok t (delBlocks_subset ts.length ts le_rfl t ht)
    · rw [if_neg h2]
      by_cases h4 : op = CUSTOM_PARAGRAPH_WITHOUT_VARIABLE
      · rw [if_pos h4]
        by_cases h5 : getV d kw = some (Value.bool true)
        · rw [if_pos h5]
          exact substTok_ok (by simp) (substTok_ok (by simp) hok)
        · rw [if_neg h5]
          intro t ht
          exact hok t (delBlocks_subset ts.length ts le_rfl t ht)
      · rw [if_neg h4]
        exact hok

theorem fold_wf :
    ∀ (R : List (Str × Str)) (d : Data) (ts : List Tok),
      DataOk d → GoodR R → Wf R ts →
      ∃ ts', R.foldl (fun acc kv => replace_template_variable acc kv.1 kv.2 d) (flat ts)
          = flat ts' ∧ Wf ([] : List (Str × Str)) ts' ∧ ∀ t ∈ ts', TokOk t := by
  intro R
  induction R with
  | nil =>
    intro d ts hd hg hwf
    exact ⟨ts, rfl, hwf, wf_ok (by intro p hp; cases hp) hwf⟩
  | cons p R' ih =>
    intro d ts hd hg hwf
    obtain ⟨kw, m⟩ := p
    have hgood : goodKw kw := (hg.1 _ (List.mem_cons_self _ _)).1
    have hok : ∀ t ∈ ts, TokOk t := wf_ok (fun q hq => (hg.1 q hq).1) hwf
    have hnodup := hg.2.1
    rw [List.map_cons] at hnodup
    have hptail : ∀ q ∈ R', q.1 ≠ kw := by
      intro q hq hqq
      have hmm : q.1 ∈ R'.map Prod.fst := List.mem_map_of_mem Prod.fst hq
      rw [hqq] at hmm
      exact (List.nodup_cons.mp hnodup).1 hmm
    have hstep : Wf R' (stepTok d kw m ts) :=
      wf_step hd (hg.1 _ (List.mem_cons_self _ _)).2.1
        (hg.1 _ (List.mem_cons_self _ _)).2.2 hptail
        (hg.2.2 _ (List.mem_cons_self _ _)) hwf
    have hGR' : GoodR R' :=
      ⟨fun q hq => hg.1 q (List.mem_cons_of_mem _ hq),
       (List.nodup_cons.mp hnodup).2,
       fun q hq => hg.2.2 q (List.mem_cons_of_mem _ hq)⟩
    obtain ⟨ts', h1, h2, h3⟩ := ih d (stepTok d kw m ts) hd hGR' hstep
    refine ⟨ts', ?_, h2, h3⟩
    calc List.foldl (fun acc kv => replace_template_variable acc kv.1 kv.2 d)
          (flat ts) ((kw, m) :: R')
        = List.foldl (fun acc kv => replace_template_variable acc kv.1 kv.2 d)
          (replace_template_variable (flat ts) kw m d) R' := rfl
      _ = List.foldl (fun acc kv => replace_template_variable acc kv.1 kv.2 d)
          (flat (stepTok d kw m ts)) R' := by rw [passTok hgood hok]
      _ = flat ts' := h1

theorem wf_nil_top {ts : List Tok} (hwf : Wf ([] : List (Str × Str)) ts) :
    ∀ t ∈ ts, TopOk ([] : List (Str × Str)) t := by
  induction hwf with
  | nil => intro t ht; cases ht
  | lit hs hw ih =>
    intro t ht
    rcases List.mem_cons.mp ht with rfl | h
    · exact hs
    · exact ih t h
  | subm hmem hw ih =>
    intro t ht
    rcases List.mem_cons.mp ht with rfl | h
    · exact hmem
    · exact ih t h
  | blk hmem hmode hinner hw ih => cases hmem

theorem final_lits {ts : List Tok} (htop : ∀ t ∈ ts, TopOk ([] : List (Str × Str)) t) :
    ∀ t ∈ substTok .sub ("web".toList) COMPANY_WEBSITE
        (substTok .sub ("company".toList) COMPANY_NAME ts),
      ∃ s, t = Tok.lit s ∧ ∀ c ∈ s, c ≠ '{' ∧ c ≠ '}' := by
  intro t ht
  rcases List.mem_map.mp ht with ⟨t1, ht1, rfl⟩
  rcases List.mem_map.mp ht1 with ⟨t0, ht0, rfl⟩
  have h0 := htop t0 ht0
  cases t0 with
  | lit s =>
    rw [if_neg (by simp), if_neg (by simp)]
    exact ⟨s, rfl, h0⟩
  | mark mk k =>
    cases mk with
    | sub =>
      rcases h0 with hm | rfl | rfl
      · exact absurd hm (List.not_mem_nil _)
      · rw [if_pos rfl, if_neg (by simp)]
        exact ⟨COMPANY_NAME, rfl, by decide⟩
      · rw [if_neg (show ¬ (Tok.mark MK.sub ("web".toList)
            = Tok.mark MK.sub ("company".toList)) by decide), if_pos rfl]
        exact ⟨COMPANY_WEBSITE, rfl, by decide⟩
    | opn => exact h0.elim
    | cls => exact h0.elim

theorem flat_braceFree :
    ∀ {ts : List Tok},
      (∀ t ∈ ts, ∃ s, t = Tok.lit s ∧ ∀ c ∈ s, c ≠ '{' ∧ c ≠ '}') →
      ∀ c ∈ flat ts, c ≠ '{' ∧ c ≠ '}' := by
  intro ts
  induction ts with
  | nil => intro _ c hc; cases hc
  | cons t ts ih =>
    intro h c hc
    obtain ⟨s, rfl, hs⟩ := h t (List.mem_cons_self _ _)
    rcases List.mem_append.mp hc with h1 | h2
    · exact hs c h1
    · exact ih (fun t' ht' => h t' (List.mem_cons_of_mem _ ht')) c h2

/-- C6, counterexample: a profile built by the normalizer from a genuine
    directory record whose primary email is the text of the lastName substitute
    marker. With the well-formed one-marker template consisting of the email
    substitute marker alone (its only marker belongs to the active field list),
    the assembler's output is exactly a residual lastName substitute marker:
    substituted profile values can inject markers for already-processed
    keywords, so the no-residual-marker claim fails for this profile. -/
theorem c6_counterexample :
    build_signature (flat [Tok.mark .sub ("email".toList)])
        (process_user_data recBraceEmail)
      = marker .sub ("lastName".toList)
    ∧ Wf (commonReplacements ++ additionalReplacements)
        [Tok.mark .sub ("email".toList)]
    ∧ truthyGet (process_user_data recBraceEmail) ("technicalUser".toList) = false :=
  ⟨by decide, Wf.subm (Or.inl (by decide)) Wf.nil, by decide⟩

/-- C6, amended. If additionally every profile value is brace-free (substituted
    values cannot forge new markers — the restriction the counterexample
    record violates), then for every profile and every well-formed template
    whose markers all belong to the profile's active field list or to
    company/web, the rendered output contains no occurrence of any substitute,
    opening or closing marker for any keyword whatsoever — in particular none
    for the active field list and neither the company nor the web marker. -/
theorem c6_amended (d : Data) (ts : List Tok) (hd : DataOk d)
    (hwf : Wf (if truthyGet d ("technicalUser".toList) then commonReplacements
        else commonReplacements ++ additionalReplacements) ts) :
    ∀ (mk : MK) (kw : Str), ¬ ∃ a b, build_signature (flat ts) d = a ++ marker mk kw ++ b := by
  have hbf : ∀ c ∈ build_signature (flat ts) d, c ≠ '{' ∧ c ≠ '}' := by
    simp only [build_signature]
    by_cases htech : truthyGet d ("technicalUser".toList) = true
    · rw [if_pos htech] at hwf ⊢
      obtain ⟨ts', h1, h2, h3⟩ := fold_wf commonReplacements d ts hd (by decide) hwf
      rw [h1, replaceAll_flat (by decide) COMPANY_NAME ts' h3]
      have h4 : ∀ t ∈ substTok .sub ("company".toList) COMPANY_NAME ts', TokOk t :=
        substTok_ok (by decide) h3
      rw [replaceAll_flat (by decide) COMPANY_WEBSITE _ h4]
      exact flat_braceFree (final_lits (wf_nil_top h2))
    · rw [if_neg htech] at hwf ⊢
      obtain ⟨ts', h1, h2, h3⟩ :=
        fold_wf (commonReplacements ++ additionalReplacements) d ts hd (by decide) hwf
      rw [h1, replaceAll_flat (by decide) COMPANY_NAME ts' h3]
      have h4 : ∀ t ∈ substTok .sub ("company".toList) COMPANY_NAME ts', TokOk t :=
        substTok_ok (by decide) h3
      rw [replaceAll_flat (by decide) COMPANY_WEBSITE _ h4]
      exact flat_braceFree (final_lits (wf_nil_top h2))
  intro mk kw
  rintro ⟨a, b, hab⟩
  have hbrace : '{' ∈ build_signature (flat ts) d := by
    rw [hab, marker_decomp]
    simp
  exact (hbf '{' hbrace).1 rfl

/-- C6, witness: a template with a literal, a lastName substitute marker and a
    phone conditional block, rendered with a brace-free profile, contains no
    residual phone substitute marker. -/
theorem c6_witness :
    ¬ ∃ a b,
      build_signature
        (flat [Tok.lit ("Hi ".toList), Tok.mark .sub ("lastName".toList),
          Tok.mark .opn ("phone".toList), Tok.lit ("Tel: ".toList),
          Tok.mark .sub ("phone".toList), Tok.mark .cls ("phone".toList),
          Tok.lit (".".toList)])
        [(("technicalUser".toList), Value.bool false),
         (("lastName".toList), Value.str ("Doe".toList)),
         (("phone".toList), Value.str ("123".toList))]
      = a ++ marker .sub ("phone".toList) ++ b := by
  have hwf : Wf (commonReplacements ++ additionalReplacements)
      [Tok.lit ("Hi ".toList), Tok.mark .sub ("lastName".toList),
        Tok.mark .opn ("phone".toList), Tok.lit ("Tel: ".toList),
        Tok.mark .sub ("phone".toList), Tok.mark .cls ("phone".toList),
        Tok.lit (".".toList)] := by
    refine Wf.lit (by decide) (Wf.subm (Or.inl (by decide)) ?_)
    show Wf _ (Tok.mark .opn ("phone".toList)
      :: ([Tok.lit ("Tel: ".toList), Tok.mark .sub ("phone".toList)]
          ++ Tok.mark .cls ("phone".toList) :: [Tok.lit (".".toList)]))
    refine Wf.blk
      (show (("phone".toList), CUSTOM_PARAGRAPH_WITH_VARIABLE)
          ∈ commonReplacements ++ additionalReplacements by decide)
      (Or.inl rfl) (by decide) (Wf.lit (by decide) Wf.nil)
  exact c6_amended
    [(("technicalUser".toList), Value.bool false),
     (("lastName".toList), Value.str ("Doe".toList)),
     (("phone".toList), Value.str ("123".toList))]
    _ (by decide) hwf .sub ("phone".toList)

end SigGen
